import Mathlib

/-!
# Bounding-box regression kernel (`BBoxTransformCPUKernel`)

A shallow embedding of `aten/src/ATen/native/vulkan/ops/bbox_transform.cpp`.

Conventions of the embedding.

* Floating-point values are elements of an arbitrary linearly ordered field `K` with a
  floor function (exact arithmetic); `ℚ` gives an executable instance.
* A tensor is its list of sizes together with its contiguous row-major buffer, the buffer
  being a function from offsets to values.
* Sizes and the C++ `int` counters are unbounded (`Nat`, `Int`); the conversion of the
  weights from `double` to `float` is the identity.
* The kernel passes `int(height / scale + 0.5)` to the clipper.  The embedding of the kernel
  keeps the exact quotient and the unbounded truncation; the statements about this rounding
  itself (`img_h`, `img_w`) take the quotient as the machine computes it, through a
  parameter `fdiv`, and the conversion to a 32-bit `int` (`toInt32`).
* The result of the kernel is an `Except` value.  A failed `TORCH_CHECK` is the error
  `invalidInput`.  The statement `num_rois_per_batch[roi_batch_id]++` with a negative index
  is an access outside the vector, undefined behaviour in C++: the embedding stops there
  with the separate outcome `outOfBounds`, so that it is neither a normal return nor a
  failed check.
* `caffe2::utils::bbox_transform`, `caffe2::utils::clip_boxes` and the constant
  `caffe2::utils::BBOX_XFORM_CLIP_DEFAULT` are not part of the translated file.  The kernel
  takes them as parameters; both functions act on every row of a block independently, and
  the embedding takes their action on one row.
-/

namespace BBoxTransform

/-! ## Data model -/

/-- Ways in which the kernel does not return normally. -/
inductive KernelError where
  /-- A failed `TORCH_CHECK`, or a `size(d)` call on a missing dimension (`c10::Error`). -/
  | invalidInput
  /-- An access outside the bounds of a `std::vector` (undefined behaviour in C++). -/
  | outOfBounds
  deriving DecidableEq, Repr

/-- A contiguous tensor: its sizes and its row-major buffer. -/
structure Tensor (K : Type) where
  sizes : List Nat
  data : Nat → K

variable {K : Type}

/-- The rank, `Tensor::dim()`. -/
def Tensor.dim (t : Tensor K) : Nat := t.sizes.length

/-- The extent of a dimension, `Tensor::size(d)`; it throws when the dimension is missing. -/
def Tensor.size (t : Tensor K) (d : Nat) : Except KernelError Nat :=
  match t.sizes[d]? with
  | some n => .ok n
  | none => .error .invalidInput

/-- Element `(r, c)` of the row-major `Eigen::Map` with `cols` columns over the buffer. -/
def Tensor.coeff (t : Tensor K) (cols r c : Nat) : K := t.data (r * cols + c)

/-- The tensor with the given sizes over the buffer holding the values of `l`. -/
def Tensor.ofList [Zero K] (sizes : List Nat) (l : List K) : Tensor K :=
  ⟨sizes, fun i => l.getD i 0⟩

/-- The check `TORCH_CHECK(cond)`. -/
def TORCH_CHECK (cond : Prop) [Decidable cond] : Except KernelError Unit :=
  if cond then .ok () else .error .invalidInput

section Kernel

variable [LinearOrderedField K] [FloorRing K]

/-- Conversion of a floating value to `int`: truncation toward zero. -/
def toInt (x : K) : Int := if 0 ≤ x then ⌊x⌋ else ⌈x⌉

/-- The statement `v[i]++` on a `std::vector<int>` for an index `i` within its bounds. -/
def increment : List Nat → Nat → List Nat
  | [], _ => []
  | n :: ns, 0 => (n + 1) :: ns
  | n :: ns, i + 1 => n :: increment ns i

/-- The counting loop of lines 58-62 over the batch indices still to be visited:
    `TORCH_CHECK(roi_batch_id < batch_size); num_rois_per_batch[roi_batch_id]++`.
    The source checks the upper bound only; the test `0 ≤ roi_batch_id` below is not a check
    of the source, it separates the increments within the vector from the accesses outside
    of it. -/
def countRois (batch_size : Nat) : List Int → List Nat → Except KernelError (List Nat)
  | [], num_rois_per_batch => .ok num_rois_per_batch
  | roi_batch_id :: rest, num_rois_per_batch =>
    if roi_batch_id < (batch_size : Int) then
      if 0 ≤ roi_batch_id then
        countRois batch_size rest (increment num_rois_per_batch roi_batch_id.toNat)
      else .error .outOfBounds
    else .error .invalidInput

/-- Column 0 of the box table converted to `int`, row by row (`roi_batch_ids(i)`). -/
def roiBatchIds (roi_in : Tensor K) (roi_cols N : Nat) : List Int :=
  (List.range N).map fun i => toInt (roi_in.coeff roi_cols i 0)

/-- The count of the boxes of every batch (lines 51-63): `num_rois_per_batch`. -/
def batchPartitioner (roi_in : Tensor K) (box_dim roi_cols N batch_size : Nat) :
    Except KernelError (List Nat) :=
  if roi_cols = box_dim then do
    TORCH_CHECK (batch_size = 1)
    pure ((List.replicate batch_size 0).set 0 N)
  else
    countRois batch_size (roiBatchIds roi_in roi_cols N) (List.replicate batch_size 0)

/-- Applies `f` to the first four columns of a row (`leftCols(4)`), keeping the others. -/
def leftCols4 (f : K → K) (row : List K) : List K :=
  (List.range row.length).map fun j => if j < 4 then f (row.getD j 0) else row.getD j 0

/-- Row `r` of `boxes0.rightCols(box_dim)`, before the division by `scale_before`. -/
def boxRow (roi_in : Tensor K) (roi_cols box_dim r : Nat) : List K :=
  (List.range box_dim).map fun j => roi_in.coeff roi_cols r (roi_cols - box_dim + j)

/-- Row `r` of the delta block of class `k`: columns `k * box_dim ..` of `deltas0`. -/
def deltaRow (delta_in : Tensor K) (delta_cols box_dim k r : Nat) : List K :=
  (List.range box_dim).map fun j => delta_in.coeff delta_cols r (k * box_dim + j)

/-- The parameters of the kernel that stay fixed during the loops. -/
structure Config (K : Type) where
  bbox_transform : List K → List K → List K → K → Bool → Bool → Int → Int → List K
  clip_boxes : List K → Int → Int → K → Bool → List K
  BBOX_XFORM_CLIP_DEFAULT : K
  weights : List K
  apply_scale : Bool
  rotated : Bool
  angle_bound_on : Bool
  angle_bound_lo : Int
  angle_bound_hi : Int
  clip_angle_thresh : K
  legacy_plus_one : Bool

/-- The offset of batch `i`: the sum of the counts of the batches before it. -/
def batchOffset (num_rois_per_batch : List Nat) : Nat → Nat
  | 0 => 0
  | i + 1 => batchOffset num_rois_per_batch i + num_rois_per_batch.getD i 0

/-- The value `box_dim` of line 28. -/
def Config.box_dim (cfg : Config K) : Nat := if cfg.rotated then 5 else 4

/-- The row written to `new_boxes` for box row `r` and class `k` in the iteration of
    batch `i` (lines 79-105): scale down, transform, clip, scale up.  The map `iminfo` has
    three columns (checked on line 39). -/
def refinedRow (cfg : Config K) (roi_in delta_in iminfo_in : Tensor K)
    (roi_cols delta_cols i k r : Nat) : List K :=
  let scale_before := iminfo_in.coeff 3 i 2
  let scale_after := if cfg.apply_scale then iminfo_in.coeff 3 i 2 else 1
  let img_h := toInt (iminfo_in.coeff 3 i 0 / scale_before + 1 / 2)
  let img_w := toInt (iminfo_in.coeff 3 i 1 / scale_before + 1 / 2)
  let cur_boxes := leftCols4 (· / scale_before) (boxRow roi_in roi_cols cfg.box_dim r)
  let cur_deltas := deltaRow delta_in delta_cols cfg.box_dim k r
  let trans_boxes := cfg.bbox_transform cur_boxes cur_deltas cfg.weights
    cfg.BBOX_XFORM_CLIP_DEFAULT cfg.legacy_plus_one cfg.angle_bound_on
    cfg.angle_bound_lo cfg.angle_bound_hi
  let clip_boxes := cfg.clip_boxes trans_boxes img_h img_w cfg.clip_angle_thresh
    cfg.legacy_plus_one
  leftCols4 (· * scale_after) clip_boxes

/-- The assignment `new_boxes.block(offset, k * box_dim, num_rois, box_dim) = rows`. -/
def writeBlock (new_boxes : Nat → Nat → K) (offset col0 num_rois box_dim : Nat)
    (rows : Nat → List K) : Nat → Nat → K :=
  fun r c =>
    if offset ≤ r ∧ r < offset + num_rois ∧ col0 ≤ c ∧ c < col0 + box_dim then
      (rows r).getD (c - col0) 0
    else new_boxes r c

/-- The loop over the classes (lines 90-107) for batch `i`. -/
def classLoop (cfg : Config K) (roi_in delta_in iminfo_in : Tensor K)
    (roi_cols delta_cols i offset num_rois num_classes : Nat)
    (new_boxes : Nat → Nat → K) : Nat → Nat → K :=
  (List.range num_classes).foldl
    (fun nb k => writeBlock nb offset (k * cfg.box_dim) num_rois cfg.box_dim
      (refinedRow cfg roi_in delta_in iminfo_in roi_cols delta_cols i k))
    new_boxes

/-- The loop over the batches (lines 77-110); the state is `offset` and `new_boxes`. -/
def batchLoop (cfg : Config K) (roi_in delta_in iminfo_in : Tensor K)
    (roi_cols delta_cols num_classes : Nat) (num_rois_per_batch : List Nat)
    (batch_size : Nat) : Nat × (Nat → Nat → K) :=
  (List.range batch_size).foldl
    (fun st i =>
      let num_rois := num_rois_per_batch.getD i 0
      (st.1 + num_rois,
        classLoop cfg roi_in delta_in iminfo_in roi_cols delta_cols i st.1 num_rois
          num_classes st.2))
    (0, fun _ _ => 0)

/-- The tensor `box_out` once the loops have run, as a function of the counts. -/
def boxOut (cfg : Config K) (roi_in delta_in iminfo_in : Tensor K)
    (roi_cols delta_cols batch_size : Nat) (counts : List Nat) : Tensor K :=
  ⟨delta_in.sizes, fun idx =>
    (batchLoop cfg roi_in delta_in iminfo_in roi_cols delta_cols (delta_cols / cfg.box_dim)
      counts batch_size).2 (idx / delta_cols) (idx % delta_cols)⟩

/-- The tensor `roi_batch_splits` (lines 112-116), as a function of the counts. -/
def batchSplits (batch_size : Nat) (counts : List Nat) : Tensor K :=
  ⟨[batch_size], fun i => ((counts.getD i 0 : Nat) : K)⟩

/-- The kernel `BBoxTransformCPUKernel`: the refined boxes and the per-batch counts. -/
def BBoxTransformCPUKernel (cfg : Config K) (roi_in delta_in iminfo_in : Tensor K) :
    Except KernelError (Tensor K × Tensor K) := do
  let box_dim := cfg.box_dim
  let N ← roi_in.size 0
  TORCH_CHECK (roi_in.dim = 2)
  let roi_cols ← roi_in.size 1
  TORCH_CHECK (roi_cols = box_dim ∨ roi_cols = box_dim + 1)
  TORCH_CHECK (delta_in.dim = 2)
  let delta_rows ← delta_in.size 0
  TORCH_CHECK (delta_rows = N)
  let delta_cols ← delta_in.size 1
  TORCH_CHECK (delta_cols % box_dim = 0)
  let num_classes := delta_cols / box_dim
  TORCH_CHECK (iminfo_in.dim = 2)
  let iminfo_cols ← iminfo_in.size 1
  TORCH_CHECK (iminfo_cols = 3)
  let batch_size ← iminfo_in.size 0
  TORCH_CHECK (cfg.weights.length = 4)
  let num_rois_per_batch ← batchPartitioner roi_in box_dim roi_cols N batch_size
  TORCH_CHECK (iminfo_in.sizes = [batch_size, 3])
  let new_boxes := (batchLoop cfg roi_in delta_in iminfo_in roi_cols delta_cols num_classes
    num_rois_per_batch batch_size).2
  let box_out : Tensor K :=
    ⟨delta_in.sizes, fun idx => new_boxes (idx / delta_cols) (idx % delta_cols)⟩
  let roi_batch_splits : Tensor K :=
    ⟨[batch_size], fun i => ((num_rois_per_batch.getD i 0 : Nat) : K)⟩
  pure (box_out, roi_batch_splits)

end Kernel

/-! ## The pipeline in the words of the specification -/

section Pipeline

variable [LinearOrderedField K] [FloorRing K]

/-- The batch of box row `r`: its batch index converted to `int` when the table carries a
    batch-index column, and batch 0 when it has exactly `box_dim` columns. -/
def rowBatch (roi_in : Tensor K) (box_dim roi_cols r : Nat) : Nat :=
  if roi_cols = box_dim then 0 else (toInt (roi_in.coeff roi_cols r 0)).toNat

/-- Row `r` of a table with `cols` columns. -/
def tableRow (t : Tensor K) (cols r : Nat) : List K :=
  (List.range cols).map fun c => t.coeff cols r c

/-- Applies `f` to the four linear coordinates of a row and keeps what follows them (a row
    with fewer than four columns has all of them changed). -/
def onLinearCoords (f : K → K) : List K → List K
  | x1 :: y1 :: x2 :: y2 :: rest => f x1 :: f y1 :: f x2 :: f y2 :: rest
  | row => row.map f

/-- Box `r` without its batch-index column. -/
def specBox (roi_in : Tensor K) (box_dim roi_cols r : Nat) : List K :=
  if roi_cols = box_dim + 1 then (tableRow roi_in roi_cols r).drop 1
  else tableRow roi_in roi_cols r

/-- The delta columns `[k * box_dim, (k + 1) * box_dim)` of row `r`. -/
def specDelta (delta_in : Tensor K) (box_dim delta_cols k r : Nat) : List K :=
  ((tableRow delta_in delta_cols r).drop (k * box_dim)).take box_dim

/-- The refined box of row `r` and class `k` as the specification describes it for a row of
    batch `b`: divide the linear coordinates by `scale_b`, transform with the deltas and the
    weights, clip with `img_h_b` and `img_w_b`, multiply the linear coordinates by
    `scale_after_b`. -/
def specRefinedRow (cfg : Config K) (roi_in delta_in iminfo_in : Tensor K)
    (roi_cols delta_cols b k r : Nat) : List K :=
  let info := tableRow iminfo_in 3 b
  let scale_b := info.getD 2 0
  let scale_after_b := if cfg.apply_scale then scale_b else 1
  let img_h_b := toInt (info.getD 0 0 / scale_b + 1 / 2)
  let img_w_b := toInt (info.getD 1 0 / scale_b + 1 / 2)
  let box := onLinearCoords (fun x => x / scale_b) (specBox roi_in cfg.box_dim roi_cols r)
  let transformed := cfg.bbox_transform box (specDelta delta_in cfg.box_dim delta_cols k r)
    cfg.weights cfg.BBOX_XFORM_CLIP_DEFAULT cfg.legacy_plus_one cfg.angle_bound_on
    cfg.angle_bound_lo cfg.angle_bound_hi
  let clipped := cfg.clip_boxes transformed img_h_b img_w_b cfg.clip_angle_thresh
    cfg.legacy_plus_one
  onLinearCoords (fun x => x * scale_after_b) clipped

end Pipeline

/-! ## Intermediate values of one iteration -/

section Iteration

variable [LinearOrderedField K] [FloorRing K]

/-- Conversion of a floating value to a 32-bit `int`: the value truncated toward zero when
    that integer is representable, and no value otherwise (the conversion is then undefined
    in C++). -/
def toInt32 (x : K) : Option Int :=
  if -(2 : Int) ^ 31 ≤ toInt x ∧ toInt x < (2 : Int) ^ 31 then some (toInt x) else none

/-- The value `img_h` of line 83 in the iteration of batch `i`:
    `int(cur_iminfo(0) / scale_before + 0.5)`.  The quotient of the two `float` values is a
    `float`: `fdiv` is that division as the machine computes it, the exact quotient rounded
    in whatever way.  The sum with `0.5` is formed in `double` and is taken as exact; the
    conversion to `int` is the 32-bit one. -/
def img_h (fdiv : K → K → K) (iminfo_in : Tensor K) (i : Nat) : Option Int :=
  toInt32 (fdiv (iminfo_in.coeff 3 i 0) (iminfo_in.coeff 3 i 2) + 1 / 2)

/-- The value `img_w` of line 84 in the iteration of batch `i`:
    `int(cur_iminfo(1) / scale_before + 0.5)`, with `fdiv` as for `img_h`. -/
def img_w (fdiv : K → K → K) (iminfo_in : Tensor K) (i : Nat) : Option Int :=
  toInt32 (fdiv (iminfo_in.coeff 3 i 1) (iminfo_in.coeff 3 i 2) + 1 / 2)

/-- Row `r` of `cur_boxes` (lines 86-89) in the iteration of batch `i`: the box handed to
    `bbox_transform`. -/
def cur_boxes (roi_in iminfo_in : Tensor K) (roi_cols box_dim i r : Nat) : List K :=
  leftCols4 (· / iminfo_in.coeff 3 i 2) (boxRow roi_in roi_cols box_dim r)

/-- Row `r` of `clip_boxes` (lines 102-103) for class `k` in the iteration of batch `i`,
    before the multiplication by `scale_after`. -/
def clippedRow (cfg : Config K) (roi_in delta_in iminfo_in : Tensor K)
    (roi_cols delta_cols i k r : Nat) : List K :=
  cfg.clip_boxes
    (cfg.bbox_transform (cur_boxes roi_in iminfo_in roi_cols cfg.box_dim i r)
      (deltaRow delta_in delta_cols cfg.box_dim k r) cfg.weights cfg.BBOX_XFORM_CLIP_DEFAULT
      cfg.legacy_plus_one cfg.angle_bound_on cfg.angle_bound_lo cfg.angle_bound_hi)
    (toInt (iminfo_in.coeff 3 i 0 / iminfo_in.coeff 3 i 2 + 1 / 2))
    (toInt (iminfo_in.coeff 3 i 1 / iminfo_in.coeff 3 i 2 + 1 / 2))
    cfg.clip_angle_thresh cfg.legacy_plus_one

/-- The integer `m` is nearest to `q`: no integer is closer. -/
def IsNearestInt (q : K) (m : Int) : Prop := ∀ n : Int, |q - (m : K)| ≤ |q - (n : K)|

/-- The block of `new_boxes` assigned in the iteration of batch `batch` and class `cls`
    (line 106): `block(offset, col0, num_rois, box_dim)`. -/
structure Block where
  batch : Nat
  cls : Nat
  offset : Nat
  col0 : Nat
  num_rois : Nat
  box_dim : Nat
  deriving DecidableEq, Repr

/-- The cell `(r, c)` lies in the block. -/
def Block.covers (b : Block) (r c : Nat) : Bool :=
  decide (b.offset ≤ r ∧ r < b.offset + b.num_rois ∧ b.col0 ≤ c ∧ c < b.col0 + b.box_dim)

/-- The blocks assigned by the loop over the classes for batch `i`, in order. -/
def classBlocks (box_dim i offset num_rois num_classes : Nat) : List Block :=
  (List.range num_classes).map fun k => ⟨i, k, offset, k * box_dim, num_rois, box_dim⟩

/-- The final `offset` and the blocks assigned by the loops of lines 77-110, in the order of
    the iterations. -/
def writtenBlocks (box_dim num_classes : Nat) (num_rois_per_batch : List Nat)
    (batch_size : Nat) : Nat × List Block :=
  (List.range batch_size).foldl
    (fun st i =>
      let num_rois := num_rois_per_batch.getD i 0
      (st.1 + num_rois, st.2 ++ classBlocks box_dim i st.1 num_rois num_classes))
    (0, [])

/-- The table `new_boxes` after the assignment of the given blocks, in order, to a table of
    zeros: each block receives the rows computed in its iteration. -/
def assignBlocks (cfg : Config K) (roi_in delta_in iminfo_in : Tensor K)
    (roi_cols delta_cols : Nat) (blocks : List Block) : Nat → Nat → K :=
  blocks.foldl
    (fun nb b => writeBlock nb b.offset b.col0 b.num_rois b.box_dim
      (refinedRow cfg roi_in delta_in iminfo_in roi_cols delta_cols b.batch b.cls))
    (fun _ _ => 0)

end Iteration

/-! ## Helpers that are not part of the translated file -/

section Helpers

variable [LinearOrderedField K] [FloorRing K]

/-- Modelled from the spec: `caffe2::utils::bbox_transform` on one axis-aligned row, which
    is missing from the translated file.  Section 4.2 (BoxDeltaTransformer), steps 1-6;
    `exp` is the exponential function and `CLIP_MAX` the bound of step 5. -/
def boxDeltaTransformer (exp : K → K) (box delta weights : List K) (CLIP_MAX : K)
    (legacy_plus_one : Bool) : List K :=
  let x1 := box.getD 0 0
  let y1 := box.getD 1 0
  let x2 := box.getD 2 0
  let y2 := box.getD 3 0
  let dx := delta.getD 0 0
  let dy := delta.getD 1 0
  let dw := delta.getD 2 0
  let dh := delta.getD 3 0
  let wx := weights.getD 0 0
  let wy := weights.getD 1 0
  let ww := weights.getD 2 0
  let wh := weights.getD 3 0
  let ε : K := if legacy_plus_one then 1 else 0
  -- step 1
  let width := x2 - x1 + ε
  let height := y2 - y1 + ε
  -- step 2
  let center_x := x1 + 1 / 2 * width
  let center_y := y1 + 1 / 2 * height
  -- step 3
  let ndx := dx / wx
  let ndy := dy / wy
  let ndw := dw / ww
  let ndh := dh / wh
  -- step 4
  let pred_center_x := ndx * width + center_x
  let pred_center_y := ndy * height + center_y
  -- step 5
  let pred_w := exp (min ndw CLIP_MAX) * width
  let pred_h := exp (min ndh CLIP_MAX) * height
  -- step 6
  let x1' := pred_center_x - 1 / 2 * pred_w
  let y1' := pred_center_y - 1 / 2 * pred_h
  let x2' := x1' + pred_w - ε
  let y2' := y1' + pred_h - ε
  [x1', y1', x2', y2']

/-- Modelled from the spec: the angle wrap of `caffe2::utils::bbox_transform`, which is
    missing from the translated file.  Section 4.3 (AngleNormalizer): when enabled, the
    angle is wrapped into `[angle_bound_lo, angle_bound_hi)` by modular arithmetic with
    the width of the window as period; when disabled, it is passed through. -/
def angleNormalizer (angle_bound_on : Bool) (angle_bound_lo angle_bound_hi : Int)
    (new_angle : K) : K :=
  if angle_bound_on then
    let period : K := (angle_bound_hi : K) - (angle_bound_lo : K)
    let shifted := new_angle - (angle_bound_lo : K)
    (angle_bound_lo : K) + (shifted - period * ((⌊shifted / period⌋ : Int) : K))
  else new_angle

/-- Clamps `x` into `[lo, hi]`. -/
def clamp (x lo hi : K) : K := max lo (min x hi)

/-- Modelled from the spec: `caffe2::utils::clip_boxes` on one axis-aligned row, which is
    missing from the translated file.  Section 4.4 (BoxClipper), axis-aligned case:
    `x1, x2` are clamped to `[0, img_w - ε]` and `y1, y2` to `[0, img_h - ε]`. -/
def boxClipper (box : List K) (img_h img_w : Int) (legacy_plus_one : Bool) : List K :=
  let ε : K := if legacy_plus_one then 1 else 0
  [clamp (box.getD 0 0) 0 ((img_w : K) - ε), clamp (box.getD 1 0) 0 ((img_h : K) - ε),
   clamp (box.getD 2 0) 0 ((img_w : K) - ε), clamp (box.getD 3 0) 0 ((img_h : K) - ε)]

/-- The bounds claimed for a clipped axis-aligned box: `0 ≤ x1 ≤ x2 ≤ img_w - ε` and
    `0 ≤ y1 ≤ y2 ≤ img_h - ε`. -/
def ClippedWithin (box : List K) (img_h img_w : Int) (legacy_plus_one : Bool) : Prop :=
  let ε : K := if legacy_plus_one then 1 else 0
  (0 ≤ box.getD 0 0 ∧ box.getD 0 0 ≤ box.getD 2 0 ∧ box.getD 2 0 ≤ (img_w : K) - ε) ∧
    (0 ≤ box.getD 1 0 ∧ box.getD 1 0 ≤ box.getD 3 0 ∧ box.getD 3 0 ≤ (img_h : K) - ε)

/-- The axis-aligned configuration whose two helpers are the ones modelled from the spec. -/
def axisAlignedConfig (exp : K → K) (CLIP_MAX : K) (weights : List K)
    (apply_scale legacy_plus_one : Bool) : Config K where
  bbox_transform := fun box delta w clipMax legacy _ _ _ =>
    boxDeltaTransformer exp box delta w clipMax legacy
  clip_boxes := fun box img_h img_w _ legacy => boxClipper box img_h img_w legacy
  BBOX_XFORM_CLIP_DEFAULT := CLIP_MAX
  weights := weights
  apply_scale := apply_scale
  rotated := false
  angle_bound_on := false
  angle_bound_lo := 0
  angle_bound_hi := 0
  clip_angle_thresh := 0
  legacy_plus_one := legacy_plus_one

end Helpers

/-! ## Sample inputs over `ℚ` -/

/-- A rational stand-in for the exponential function, exact at `0`. -/
def sampleExp (x : ℚ) : ℚ := 1 + x + x ^ 2 / 2

/-- Axis-aligned mode, weights `(1, 1, 1, 1)`, no scaling of the output, no plus-one. -/
def sampleConfig : Config ℚ := axisAlignedConfig sampleExp 4 [1, 1, 1, 1] false false

/-- Three boxes with a batch-index column: two of batch 0, one of batch 1. -/
def sampleRois : Tensor ℚ :=
  Tensor.ofList [3, 5] [0, 1, 1, 2, 2, 0, 3, 3, 4, 4, 1, 5, 5, 6, 6]

/-- All-zero deltas for three boxes and one class. -/
def sampleDeltas : Tensor ℚ := Tensor.ofList [3, 4] []

/-- Two images: `10 x 10` at scale `1` and `20 x 20` at scale `2`. -/
def sampleImInfo : Tensor ℚ := Tensor.ofList [2, 3] [10, 10, 1, 20, 20, 2]

/-- Two boxes with a batch-index column: batch index `-1`, then batch index `1`. -/
def negativeIndexRois : Tensor ℚ := Tensor.ofList [2, 5] [-1, 0, 0, 1, 1, 1, 0, 0, 1, 1]

/-- All-zero deltas for two boxes and one class. -/
def twoRowDeltas : Tensor ℚ := Tensor.ofList [2, 4] []

/-- One image: `10 x 10` at scale `1`. -/
def oneImageInfo : Tensor ℚ := Tensor.ofList [1, 3] [10, 10, 1]

/-- Two boxes without a batch-index column. -/
def twoBoxes : Tensor ℚ := Tensor.ofList [2, 4] [1, 1, 2, 2, 3, 3, 12, 12]

/-- One box `(0, 0, 11, 11)` without a batch-index column. -/
def wideBox : Tensor ℚ := Tensor.ofList [1, 4] [0, 0, 11, 11]

/-- All-zero deltas for one box and one class. -/
def oneRowDeltas : Tensor ℚ := Tensor.ofList [1, 4] []

/-- One image of height and width `21/2` at scale 1. -/
def halfPixelImage : Tensor ℚ := Tensor.ofList [1, 3] [21 / 2, 21 / 2, 1]

/-- One image of `100 x 100` at scale 1. -/
def largeImage : Tensor ℚ := Tensor.ofList [1, 3] [100, 100, 1]

/-- One box `(10, 10, 20, 20)` without a batch-index column. -/
def innerBox : Tensor ℚ := Tensor.ofList [1, 4] [10, 10, 20, 20]

/-- One box `(-5, -5, 5, 5)` without a batch-index column. -/
def cornerBox : Tensor ℚ := Tensor.ofList [1, 4] [-5, -5, 5, 5]

/-- Axis-aligned mode, weights `(1, 1, 1, 1)`, with scaling of the output, no plus-one. -/
def scalingConfig : Config ℚ := axisAlignedConfig sampleExp 4 [1, 1, 1, 1] true false

/-- The boxes of `sampleRois` with their linear coordinates multiplied by 2. -/
def doubledRois : Tensor ℚ :=
  Tensor.ofList [3, 5] [0, 2, 2, 4, 4, 0, 6, 6, 8, 8, 1, 10, 10, 12, 12]

/-- Two images at scale 1: `10 x 10` and `4 x 4`. -/
def unitScaleImInfo : Tensor ℚ := Tensor.ofList [2, 3] [10, 10, 1, 4, 4, 1]

/-- The images of `unitScaleImInfo` stored at scale 2. -/
def doubledImInfo : Tensor ℚ := Tensor.ofList [2, 3] [20, 20, 2, 8, 8, 2]

/-- One box with a batch-index column whose batch index is `-1`. -/
def minusOneRois : Tensor ℚ := Tensor.ofList [1, 5] [-1, 0, 0, 1, 1]

/-- The boxes of `sampleRois` with the batch indices in the order `1, 0, 0`. -/
def permutedRois : Tensor ℚ :=
  Tensor.ofList [3, 5] [1, 1, 1, 2, 2, 0, 3, 3, 4, 4, 0, 5, 5, 6, 6]

/-- One image whose stored height and width are `-3` at scale 1. -/
def negativeSizeImage : Tensor ℚ := Tensor.ofList [1, 3] [-3, -3, 1]

/-- One image whose stored height and width are `10^10` (a `float` value) at scale 1. -/
def hugeImage : Tensor ℚ := Tensor.ofList [1, 3] [10 ^ 10, 10 ^ 10, 1]

/-- One image whose stored height and width are `2.75` at the scale `1.1f`, the `float`
    nearest to `1.1`, which is `9227469 / 2^23`. -/
def roundingImage : Tensor ℚ :=
  Tensor.ofList [1, 3] [11 / 4, 11 / 4, 9227469 / 8388608]

/-- A division that rounds as the `float` division does on the sample inputs: the quotient of
    `2.75` and `1.1f` is `2.4999999458...` and rounds to the `float` `2.5`; the other
    quotients taken below are exact. -/
def roundedDiv (x y : ℚ) : ℚ :=
  if x = 11 / 4 ∧ y = 9227469 / 8388608 then 5 / 2 else x / y

/-- Rotated mode with five weights. -/
def fiveWeightConfig : Config ℚ :=
  { sampleConfig with rotated := true, weights := [1, 1, 1, 1, 1] }

end BBoxTransform

/-! ## Lemmas on the counting loop -/

namespace BBoxTransform

variable {K : Type}

theorem getD_range_map {α : Type} (f : Nat → α) (n j : Nat) (d : α) (h : j < n) :
    ((List.range n).map f).getD j d = f j := by
  simp [List.getD_eq_getElem?_getD, h]

theorem increment_length (counts : List Nat) (i : Nat) :
    (increment counts i).length = counts.length := by
  induction counts generalizing i with
  | nil => rfl
  | cons n ns ih => cases i <;> simp [increment, ih]

theorem increment_sum (counts : List Nat) (i : Nat) (h : i < counts.length) :
    (increment counts i).sum = counts.sum + 1 := by
  induction counts generalizing i with
  | nil => simp at h
  | cons n ns ih =>
    cases i with
    | zero => simp [increment]; omega
    | succ i =>
      have hi : i < ns.length := by simpa using h
      simp [increment, ih i hi]; omega

theorem increment_getD (counts : List Nat) (i j : Nat) (h : i < counts.length) :
    (increment counts i).getD j 0 = counts.getD j 0 + (if j = i then 1 else 0) := by
  induction counts generalizing i j with
  | nil => simp at h
  | cons n ns ih =>
    cases i with
    | zero => cases j <;> simp [increment]
    | succ i =>
      have hi : i < ns.length := by simpa using h
      cases j with
      | zero => simp [increment]
      | succ j => simpa [increment] using ih i j hi

theorem countRois_ok_length (batch_size : Nat) (ids : List Int) (counts res : List Nat)
    (h : countRois batch_size ids counts = .ok res) : res.length = counts.length := by
  induction ids generalizing counts with
  | nil => simp [countRois] at h; rw [← h]
  | cons id rest ih =>
    simp only [countRois] at h
    split at h
    · split at h
      · rw [ih _ h, increment_length]
      · cases h
    · cases h

theorem countRois_ok_bounds (batch_size : Nat) (ids : List Int) (counts res : List Nat)
    (h : countRois batch_size ids counts = .ok res) :
    ∀ id ∈ ids, 0 ≤ id ∧ id < (batch_size : Int) := by
  induction ids generalizing counts with
  | nil => simp
  | cons id rest ih =>
    simp only [countRois] at h
    split at h
    · split at h
      · intro x hx
        rcases List.mem_cons.mp hx with rfl | hx
        · constructor <;> assumption
        · exact ih _ h x hx
      · cases h
    · cases h

theorem countRois_ok_sum (batch_size : Nat) (ids : List Int) (counts res : List Nat)
    (hlen : counts.length = batch_size)
    (h : countRois batch_size ids counts = .ok res) : res.sum = counts.sum + ids.length := by
  induction ids generalizing counts with
  | nil => simp [countRois] at h; simp [← h]
  | cons id rest ih =>
    simp only [countRois] at h
    split at h
    · split at h
      · have hlt : id.toNat < counts.length := by omega
        rw [ih _ (by rw [increment_length, hlen]) h, increment_sum _ _ hlt]
        simp; omega
      · cases h
    · cases h

theorem countRois_ok_getD (batch_size : Nat) (ids : List Int) (counts res : List Nat)
    (hlen : counts.length = batch_size)
    (h : countRois batch_size ids counts = .ok res) (b : Nat) :
    res.getD b 0 = counts.getD b 0 + ids.count (b : Int) := by
  induction ids generalizing counts with
  | nil => simp [countRois] at h; simp [← h]
  | cons id rest ih =>
    simp only [countRois] at h
    split at h
    · split at h
      · have hlt : id.toNat < counts.length := by omega
        rw [ih _ (by rw [increment_length, hlen]) h, increment_getD _ _ _ hlt,
          List.count_cons]
        have : (b = id.toNat) ↔ (id = (b : Int)) := by omega
        by_cases hb : b = id.toNat
        · have hb2 : id = (b : Int) := this.mp hb
          simp [hb2]; omega
        · have hb2 : ¬ id = (b : Int) := fun e => hb (this.mpr e)
          simp [hb, hb2]
      · cases h
    · cases h

/-- The counting loop succeeds when every index lies in `[0, batch_size)`. -/
theorem countRois_ok_of_bounds (batch_size : Nat) (ids : List Int) (counts : List Nat)
    (h : ∀ id ∈ ids, 0 ≤ id ∧ id < (batch_size : Int)) :
    ∃ res, countRois batch_size ids counts = .ok res := by
  induction ids generalizing counts with
  | nil => exact ⟨counts, rfl⟩
  | cons id rest ih =>
    have h0 := h id (List.mem_cons_self _ _)
    simp only [countRois, h0.1, h0.2, if_true]
    exact ih _ (fun x hx => h x (List.mem_cons_of_mem _ hx))

end BBoxTransform

/-! ## Lemmas on the loops over batches and classes -/

namespace BBoxTransform

variable {K : Type}

theorem batchOffset_mono (counts : List Nat) {i j : Nat} (h : i ≤ j) :
    batchOffset counts i ≤ batchOffset counts j := by
  induction j with
  | zero =>
    have : i = 0 := by omega
    subst this; exact le_refl _
  | succ j ih =>
    rcases Nat.lt_or_ge i (j + 1) with hlt | hge
    · have := ih (by omega)
      simp only [batchOffset]; omega
    · have : i = j + 1 := by omega
      subst this; exact le_refl _

theorem batchOffset_eq_sum_take (counts : List Nat) (i : Nat) :
    batchOffset counts i = (counts.take i).sum := by
  induction i with
  | zero => simp [batchOffset]
  | succ i ih =>
    simp only [batchOffset, ih]
    rcases Nat.lt_or_ge i counts.length with hlt | hge
    · rw [List.take_succ, List.sum_append]
      simp [List.getD_eq_getElem?_getD, List.getElem?_eq_getElem hlt]
    · rw [List.take_of_length_le hge, List.take_of_length_le (by omega)]
      simp [List.getD_eq_getElem?_getD, List.getElem?_eq_none hge]

theorem batchOffset_length (counts : List Nat) : batchOffset counts counts.length = counts.sum := by
  rw [batchOffset_eq_sum_take, List.take_length]

theorem Config.box_dim_pos (cfg : Config K) : 0 < cfg.box_dim := by
  unfold Config.box_dim; split <;> decide

section Loops

variable [LinearOrderedField K] [FloorRing K]

omit [FloorRing K] in
theorem foldl_writeBlock (bd : Nat) (hbd : 0 < bd) (rows : Nat → Nat → List K)
    (offset num_rois n : Nat) (nb : Nat → Nat → K) (r c : Nat) :
    ((List.range n).foldl (fun nb k => writeBlock nb offset (k * bd) num_rois bd (rows k)) nb)
        r c =
      if offset ≤ r ∧ r < offset + num_rois ∧ c < n * bd then
        (rows (c / bd) r).getD (c % bd) 0
      else nb r c := by
  induction n with
  | zero => simp
  | succ n ih =>
    rw [List.range_succ, List.foldl_append]
    simp only [List.foldl_cons, List.foldl_nil, writeBlock]
    rw [ih]
    have hsucc : (n + 1) * bd = n * bd + bd := by ring
    rw [hsucc]
    by_cases h1 : offset ≤ r ∧ r < offset + num_rois
    · obtain ⟨ha, hb⟩ := h1
      by_cases h2 : n * bd ≤ c ∧ c < n * bd + bd
      · obtain ⟨hc, hd⟩ := h2
        have hdiv : c / bd = n :=
          Nat.div_eq_of_lt_le (by simpa using hc) (by rw [hsucc]; exact hd)
        have hmod : c % bd = c - n * bd := by
          have := Nat.div_add_mod c bd
          rw [hdiv, Nat.mul_comm] at this
          omega
        simp [ha, hb, hc, hd, hdiv, hmod]
      · by_cases h3 : c < n * bd
        · have h4 : c < n * bd + bd := by omega
          simp [ha, hb, h3, h4]
        · have h4 : ¬ c < n * bd + bd := by omega
          have h5 : ¬ (n * bd ≤ c ∧ c < n * bd + bd) := h2
          simp [ha, hb, h3, h4]
    · have h1a : ¬ (offset ≤ r ∧ r < offset + num_rois ∧ n * bd ≤ c ∧ c < n * bd + bd) :=
        fun h => h1 ⟨h.1, h.2.1⟩
      have h1b : ¬ (offset ≤ r ∧ r < offset + num_rois ∧ c < n * bd) :=
        fun h => h1 ⟨h.1, h.2.1⟩
      have h1c : ¬ (offset ≤ r ∧ r < offset + num_rois ∧ c < n * bd + bd) :=
        fun h => h1 ⟨h.1, h.2.1⟩
      rw [if_neg h1a, if_neg h1b, if_neg h1c]

theorem classLoop_apply (cfg : Config K) (roi_in delta_in iminfo_in : Tensor K)
    (roi_cols delta_cols i offset num_rois num_classes : Nat) (nb : Nat → Nat → K)
    (r c : Nat) :
    classLoop cfg roi_in delta_in iminfo_in roi_cols delta_cols i offset num_rois
        num_classes nb r c =
      if offset ≤ r ∧ r < offset + num_rois ∧ c < num_classes * cfg.box_dim then
        (refinedRow cfg roi_in delta_in iminfo_in roi_cols delta_cols i (c / cfg.box_dim)
          r).getD (c % cfg.box_dim) 0
      else nb r c :=
  foldl_writeBlock cfg.box_dim cfg.box_dim_pos
    (fun k => refinedRow cfg roi_in delta_in iminfo_in roi_cols delta_cols i k)
    offset num_rois num_classes nb r c

theorem batchLoop_succ (cfg : Config K) (roi_in delta_in iminfo_in : Tensor K)
    (roi_cols delta_cols num_classes : Nat) (counts : List Nat) (n : Nat) :
    batchLoop cfg roi_in delta_in iminfo_in roi_cols delta_cols num_classes counts (n + 1) =
      ((batchLoop cfg roi_in delta_in iminfo_in roi_cols delta_cols num_classes counts n).1
          + counts.getD n 0,
        classLoop cfg roi_in delta_in iminfo_in roi_cols delta_cols n
          (batchLoop cfg roi_in delta_in iminfo_in roi_cols delta_cols num_classes counts n).1
          (counts.getD n 0) num_classes
          (batchLoop cfg roi_in delta_in iminfo_in roi_cols delta_cols num_classes counts
            n).2) := by
  simp [batchLoop, List.range_succ, List.foldl_append]

theorem batchLoop_fst (cfg : Config K) (roi_in delta_in iminfo_in : Tensor K)
    (roi_cols delta_cols num_classes : Nat) (counts : List Nat) (n : Nat) :
    (batchLoop cfg roi_in delta_in iminfo_in roi_cols delta_cols num_classes counts n).1 =
      batchOffset counts n := by
  induction n with
  | zero => simp [batchLoop, batchOffset]
  | succ n ih => rw [batchLoop_succ]; simp [batchOffset, ih]

/-- The cell written for a row that lies in the range of batch `i`. -/
theorem batchLoop_apply (cfg : Config K) (roi_in delta_in iminfo_in : Tensor K)
    (roi_cols delta_cols num_classes : Nat) (counts : List Nat) (n i : Nat) (hi : i < n)
    (r c : Nat) (h1 : batchOffset counts i ≤ r) (h2 : r < batchOffset counts (i + 1))
    (hc : c < num_classes * cfg.box_dim) :
    (batchLoop cfg roi_in delta_in iminfo_in roi_cols delta_cols num_classes counts n).2 r c =
      (refinedRow cfg roi_in delta_in iminfo_in roi_cols delta_cols i (c / cfg.box_dim)
        r).getD (c % cfg.box_dim) 0 := by
  induction n with
  | zero => omega
  | succ n ih =>
    rw [batchLoop_succ]
    simp only [classLoop_apply, batchLoop_fst]
    rcases Nat.lt_or_ge i n with hlt | hge
    · have hmono := batchOffset_mono counts (show i + 1 ≤ n by omega)
      have hno : ¬ (batchOffset counts n ≤ r ∧ r < batchOffset counts n + counts.getD n 0 ∧
          c < num_classes * cfg.box_dim) := by
        intro h; omega
      rw [if_neg hno]
      exact ih hlt
    · have hin : i = n := by omega
      subst hin
      have hyes : batchOffset counts i ≤ r ∧ r < batchOffset counts i + counts.getD i 0 ∧
          c < num_classes * cfg.box_dim := ⟨h1, by simpa [batchOffset] using h2, hc⟩
      rw [if_pos hyes]

/-- A cell outside the ranges of all the batches visited so far is still zero. -/
theorem batchLoop_untouched (cfg : Config K) (roi_in delta_in iminfo_in : Tensor K)
    (roi_cols delta_cols num_classes : Nat) (counts : List Nat) (n : Nat)
    (r c : Nat) (h : batchOffset counts n ≤ r ∨ num_classes * cfg.box_dim ≤ c) :
    (batchLoop cfg roi_in delta_in iminfo_in roi_cols delta_cols num_classes counts n).2 r c =
      0 := by
  induction n with
  | zero => simp [batchLoop]
  | succ n ih =>
    rw [batchLoop_succ]
    simp only [classLoop_apply, batchLoop_fst]
    have hno : ¬ (batchOffset counts n ≤ r ∧ r < batchOffset counts n + counts.getD n 0 ∧
        c < num_classes * cfg.box_dim) := by
      intro h'
      simp only [batchOffset] at h
      omega
    rw [if_neg hno]
    apply ih
    rcases h with h | h
    · left; simp only [batchOffset] at h; omega
    · right; exact h

end Loops

end BBoxTransform

/-! ## The checks of the kernel -/

namespace BBoxTransform

variable {K : Type}

theorem Tensor.size_eq_ok (t : Tensor K) (d n : Nat) :
    t.size d = .ok n ↔ t.sizes[d]? = some n := by
  unfold Tensor.size
  cases h : t.sizes[d]? <;> simp

theorem Tensor.size_of_none (t : Tensor K) (d : Nat) (h : t.sizes[d]? = none) :
    t.size d = .error .invalidInput := by
  unfold Tensor.size; rw [h]

theorem TORCH_CHECK_pos (cond : Prop) [Decidable cond] (h : cond) : TORCH_CHECK cond = .ok () := by
  unfold TORCH_CHECK; rw [if_pos h]

theorem TORCH_CHECK_neg (cond : Prop) [Decidable cond] (h : ¬ cond) :
    TORCH_CHECK cond = .error .invalidInput := by
  unfold TORCH_CHECK; rw [if_neg h]

theorem bind_eq_ok_iff {α β : Type} (x : Except KernelError α) (f : α → Except KernelError β)
    (b : β) : (x >>= f) = .ok b ↔ ∃ a, x = .ok a ∧ f a = .ok b := by
  cases x <;> simp [bind, Except.bind]

theorem TORCH_CHECK_eq_ok (cond : Prop) [Decidable cond] (u : Unit) :
    TORCH_CHECK cond = .ok u ↔ cond := by
  unfold TORCH_CHECK; split <;> simp [*]

theorem sizes_eq_pair (l : List Nat) (a b : Nat) (h : l.length = 2) (h0 : l[0]? = some a)
    (h1 : l[1]? = some b) : l = [a, b] := by
  match l, h with
  | [x, y], _ =>
    simp at h0 h1
    rw [h0, h1]

section Checks

variable [LinearOrderedField K] [FloorRing K]

/-- The kernel returns normally exactly when the shapes pass the checks and the counting
    succeeds; its result is then determined by the counts. -/
theorem kernel_ok_iff (cfg : Config K) (roi_in delta_in iminfo_in out splits : Tensor K) :
    BBoxTransformCPUKernel cfg roi_in delta_in iminfo_in = .ok (out, splits) ↔
      ∃ N roi_cols delta_cols batch_size counts,
        roi_in.sizes = [N, roi_cols] ∧
        (roi_cols = cfg.box_dim ∨ roi_cols = cfg.box_dim + 1) ∧
        delta_in.sizes = [N, delta_cols] ∧
        delta_cols % cfg.box_dim = 0 ∧
        iminfo_in.sizes = [batch_size, 3] ∧
        cfg.weights.length = 4 ∧
        batchPartitioner roi_in cfg.box_dim roi_cols N batch_size = .ok counts ∧
        out = boxOut cfg roi_in delta_in iminfo_in roi_cols delta_cols batch_size counts ∧
        splits = batchSplits batch_size counts := by
  constructor
  · intro h
    unfold BBoxTransformCPUKernel at h
    simp only [bind_eq_ok_iff, TORCH_CHECK_eq_ok, Tensor.size_eq_ok, pure, Except.pure,
      Except.ok.injEq, Prod.mk.injEq, Tensor.dim] at h
    obtain ⟨N, hN, _, hdim, roi_cols, hrc, _, hcols, _, hddim, delta_rows, hdr, _, hdrN,
      delta_cols, hdc, _, hmod, _, hidim, iminfo_cols, hic, _, hic3, batch_size, hbs, _, hw,
      counts, hcounts, _, _, hout, hsplits⟩ := h
    rw [hdrN] at hdr
    rw [hic3] at hic
    exact ⟨N, roi_cols, delta_cols, batch_size, counts, sizes_eq_pair _ _ _ hdim hN hrc, hcols,
      sizes_eq_pair _ _ _ hddim hdr hdc, hmod, sizes_eq_pair _ _ _ hidim hbs hic, hw, hcounts,
      hout.symm, hsplits.symm⟩
  · rintro ⟨N, roi_cols, delta_cols, batch_size, counts, hroi, hcols, hdelta, hmod, him, hw,
      hcounts, rfl, rfl⟩
    unfold BBoxTransformCPUKernel
    simp only [bind_eq_ok_iff, TORCH_CHECK_eq_ok, Tensor.size_eq_ok, pure, Except.pure,
      Except.ok.injEq, Prod.mk.injEq, Tensor.dim]
    refine ⟨N, by simp [hroi], (), by simp [hroi], roi_cols, by simp [hroi], (), hcols, (),
      by simp [hdelta], N, by simp [hdelta], (), rfl, delta_cols, by simp [hdelta], (), hmod,
      (), by simp [him], 3, by simp [him], (), rfl, batch_size, by simp [him], (), hw, counts,
      hcounts, (), him, rfl, rfl⟩

theorem bind_eq_error_iff {α β : Type} (x : Except KernelError α)
    (f : α → Except KernelError β) (e : KernelError) :
    (x >>= f) = .error e ↔ x = .error e ∨ ∃ a, x = .ok a ∧ f a = .error e := by
  cases x <;> simp [bind, Except.bind]

theorem TORCH_CHECK_ne_outOfBounds (cond : Prop) [Decidable cond] :
    TORCH_CHECK cond = .error .outOfBounds ↔ False := by
  unfold TORCH_CHECK; split <;> simp

omit [LinearOrderedField K] [FloorRing K] in
theorem Tensor.size_ne_outOfBounds (t : Tensor K) (d : Nat) :
    t.size d = .error .outOfBounds ↔ False := by
  unfold Tensor.size; split <;> simp

/-- An out-of-bounds access happens only after the shapes have passed the checks. -/
theorem kernel_outOfBounds_shapes (cfg : Config K) (roi_in delta_in iminfo_in : Tensor K)
    (h : BBoxTransformCPUKernel cfg roi_in delta_in iminfo_in = .error .outOfBounds) :
    ∃ N roi_cols delta_cols batch_size,
      roi_in.sizes = [N, roi_cols] ∧
      (roi_cols = cfg.box_dim ∨ roi_cols = cfg.box_dim + 1) ∧
      delta_in.sizes = [N, delta_cols] ∧
      delta_cols % cfg.box_dim = 0 ∧
      iminfo_in.sizes = [batch_size, 3] ∧
      cfg.weights.length = 4 := by
  unfold BBoxTransformCPUKernel at h
  simp only [bind_eq_error_iff, TORCH_CHECK_ne_outOfBounds, Tensor.size_ne_outOfBounds,
    TORCH_CHECK_eq_ok, Tensor.size_eq_ok, false_or, Tensor.dim] at h
  obtain ⟨N, hN, _, hdim, roi_cols, hrc, _, hcols, _, hddim, delta_rows, hdr, _, hdrN,
    delta_cols, hdc, _, hmod, _, hidim, iminfo_cols, hic, _, hic3, batch_size, hbs, _, hw,
    -⟩ := h
  rw [hdrN] at hdr
  rw [hic3] at hic
  exact ⟨N, roi_cols, delta_cols, batch_size, sizes_eq_pair _ _ _ hdim hN hrc, hcols,
    sizes_eq_pair _ _ _ hddim hdr hdc, hmod, sizes_eq_pair _ _ _ hidim hbs hic, hw⟩

/-- Unless the kernel fails with an invalid-input error, the shapes have passed the checks. -/
theorem kernel_shapes_of_ne_invalidInput (cfg : Config K)
    (roi_in delta_in iminfo_in : Tensor K)
    (h : BBoxTransformCPUKernel cfg roi_in delta_in iminfo_in ≠ .error .invalidInput) :
    ∃ N roi_cols delta_cols batch_size,
      roi_in.sizes = [N, roi_cols] ∧
      (roi_cols = cfg.box_dim ∨ roi_cols = cfg.box_dim + 1) ∧
      delta_in.sizes = [N, delta_cols] ∧
      delta_cols % cfg.box_dim = 0 ∧
      iminfo_in.sizes = [batch_size, 3] ∧
      cfg.weights.length = 4 := by
  cases hres : BBoxTransformCPUKernel cfg roi_in delta_in iminfo_in with
  | error e =>
    cases e with
    | invalidInput => exact absurd hres h
    | outOfBounds => exact kernel_outOfBounds_shapes cfg roi_in delta_in iminfo_in hres
  | ok p =>
    obtain ⟨out, splits⟩ := p
    obtain ⟨N, roi_cols, delta_cols, batch_size, _, h1, h2, h3, h4, h5, h6, -⟩ :=
      (kernel_ok_iff cfg roi_in delta_in iminfo_in out splits).mp hres
    exact ⟨N, roi_cols, delta_cols, batch_size, h1, h2, h3, h4, h5, h6⟩

/-- Once the shapes pass the checks, the kernel is decided by the counting. -/
theorem kernel_of_shapes (cfg : Config K) (roi_in delta_in iminfo_in : Tensor K)
    (N roi_cols delta_cols batch_size : Nat)
    (hroi : roi_in.sizes = [N, roi_cols])
    (hcols : roi_cols = cfg.box_dim ∨ roi_cols = cfg.box_dim + 1)
    (hdelta : delta_in.sizes = [N, delta_cols])
    (hmod : delta_cols % cfg.box_dim = 0)
    (him : iminfo_in.sizes = [batch_size, 3])
    (hw : cfg.weights.length = 4) :
    BBoxTransformCPUKernel cfg roi_in delta_in iminfo_in =
      match batchPartitioner roi_in cfg.box_dim roi_cols N batch_size with
      | .ok counts =>
        .ok (boxOut cfg roi_in delta_in iminfo_in roi_cols delta_cols batch_size counts,
          batchSplits batch_size counts)
      | .error e => .error e := by
  unfold BBoxTransformCPUKernel
  have h0 : roi_in.size 0 = .ok N := by simp [Tensor.size, hroi]
  have h1 : roi_in.size 1 = .ok roi_cols := by simp [Tensor.size, hroi]
  have h2 : delta_in.size 0 = .ok N := by simp [Tensor.size, hdelta]
  have h3 : delta_in.size 1 = .ok delta_cols := by simp [Tensor.size, hdelta]
  have h4 : iminfo_in.size 0 = .ok batch_size := by simp [Tensor.size, him]
  have h5 : iminfo_in.size 1 = .ok 3 := by simp [Tensor.size, him]
  have d0 : roi_in.dim = 2 := by simp [Tensor.dim, hroi]
  have d1 : delta_in.dim = 2 := by simp [Tensor.dim, hdelta]
  have d2 : iminfo_in.dim = 2 := by simp [Tensor.dim, him]
  simp only [h0, h1, h2, h3, h4, h5, bind, Except.bind, TORCH_CHECK_pos _ d0,
    TORCH_CHECK_pos _ d1, TORCH_CHECK_pos _ d2, TORCH_CHECK_pos _ hcols, TORCH_CHECK_pos _ hmod,
    TORCH_CHECK_pos _ hw, TORCH_CHECK_pos _ him, TORCH_CHECK_pos, pure, Except.pure]
  cases batchPartitioner roi_in cfg.box_dim roi_cols N batch_size <;> rfl

end Checks

end BBoxTransform

/-! ## The per-batch counts -/

namespace BBoxTransform

variable {K : Type}

section Counts

variable [LinearOrderedField K] [FloorRing K]

theorem roiBatchIds_length (roi_in : Tensor K) (roi_cols N : Nat) :
    (roiBatchIds roi_in roi_cols N).length = N := by
  simp [roiBatchIds]

theorem batchPartitioner_ok (roi_in : Tensor K) (box_dim roi_cols N batch_size : Nat)
    (counts : List Nat)
    (h : batchPartitioner roi_in box_dim roi_cols N batch_size = .ok counts) :
    counts.length = batch_size ∧ counts.sum = N := by
  unfold batchPartitioner at h
  split at h
  · simp only [bind_eq_ok_iff, TORCH_CHECK_eq_ok, pure, Except.pure, Except.ok.injEq] at h
    obtain ⟨_, hb, hc⟩ := h
    subst hb
    rw [← hc]
    simp
  · constructor
    · rw [countRois_ok_length _ _ _ _ h, List.length_replicate]
    · rw [countRois_ok_sum _ _ _ _ (List.length_replicate _ _) h, roiBatchIds_length]
      simp

omit [FloorRing K] in
theorem sum_range_getD_cast (counts : List Nat) :
    ((List.range counts.length).map fun i => ((counts.getD i 0 : Nat) : K)).sum =
      ((counts.sum : Nat) : K) := by
  have : ((List.range counts.length).map fun i => ((counts.getD i 0 : Nat) : K)) =
      counts.map (Nat.cast : Nat → K) := by
    apply List.ext_getElem
    · simp
    · intro i h1 h2
      have hi : i < counts.length := by simpa using h2
      simp [List.getD_eq_getElem?_getD, List.getElem?_eq_getElem hi]
  rw [this, Nat.cast_list_sum]

end Counts

end BBoxTransform

/-! ## Sorted batch indices -/

namespace BBoxTransform

theorem countP_lt_succ (ids : List Int) (b : Int) :
    ids.countP (fun x => decide (x < b + 1)) =
      ids.countP (fun x => decide (x < b)) + ids.count b := by
  induction ids with
  | nil => simp
  | cons a t ih =>
    rw [List.countP_cons, List.countP_cons, List.count_cons, ih]
    rcases lt_trichotomy a b with h | h | h
    · have h1 : a < b + 1 := by omega
      have h2 : ¬ a = b := by omega
      simp [h, h1, h2]; omega
    · subst h
      simp; omega
    · have h1 : ¬ a < b + 1 := by omega
      have h2 : ¬ a < b := by omega
      have h3 : ¬ a = b := by omega
      simp [h1, h2, h3]

theorem batchOffset_eq_countP (ids : List Int) (counts : List Nat)
    (hnonneg : ∀ id ∈ ids, 0 ≤ id)
    (hcount : ∀ j : Nat, counts.getD j 0 = ids.count (j : Int)) (b : Nat) :
    batchOffset counts b = ids.countP (fun x => decide (x < (b : Int))) := by
  induction b with
  | zero =>
    simp only [batchOffset]
    symm
    rw [List.countP_eq_zero]
    intro x hx
    have := hnonneg x hx
    simp; omega
  | succ b ih =>
    simp only [batchOffset, ih, hcount]
    rw [Nat.cast_succ, countP_lt_succ]

theorem sorted_countP (ids : List Int) (hs : ids.Pairwise (· ≤ ·)) (r : Nat)
    (hr : r < ids.length) :
    ids.countP (fun x => decide (x < ids[r])) ≤ r ∧
      r < ids.countP (fun x => decide (x < ids[r] + 1)) := by
  induction ids generalizing r with
  | nil => simp at hr
  | cons a t ih =>
    rw [List.pairwise_cons] at hs
    obtain ⟨ha, ht⟩ := hs
    cases r with
    | zero =>
      simp only [List.getElem_cons_zero, List.countP_cons]
      have h0 : t.countP (fun x => decide (x < a)) = 0 := by
        rw [List.countP_eq_zero]
        intro x hx
        have := ha x hx
        simp; omega
      rw [h0]
      simp
    | succ r =>
      have hr' : r < t.length := by simpa using hr
      obtain ⟨h1, h2⟩ := ih ht r hr'
      simp only [List.getElem_cons_succ, List.countP_cons]
      have hle : a ≤ t[r] := ha _ (List.getElem_mem _)
      have hlt : a < t[r] + 1 := by omega
      constructor
      · split <;> omega
      · simp only [hlt, decide_True, if_true]
        omega

/-- With sorted batch indices, row `r` lies in the range of rows visited for its batch. -/
theorem row_in_batch_range (batch_size : Nat) (ids : List Int) (counts : List Nat)
    (h : countRois batch_size ids (List.replicate batch_size 0) = .ok counts)
    (hs : ids.Pairwise (· ≤ ·)) (r : Nat) (hr : r < ids.length) :
    ids[r].toNat < batch_size ∧ batchOffset counts ids[r].toNat ≤ r ∧
      r < batchOffset counts (ids[r].toNat + 1) := by
  have hb := countRois_ok_bounds _ _ _ _ h
  have hcount : ∀ j : Nat, counts.getD j 0 = ids.count (j : Int) := by
    intro j
    rw [countRois_ok_getD _ _ _ _ (List.length_replicate _ _) h j]
    simp [List.getD_eq_getElem?_getD, List.getElem?_replicate]
    split <;> rfl
  have hr0 := hb _ (List.getElem_mem hr)
  have hcast : ((ids[r].toNat : Nat) : Int) = ids[r] := Int.toNat_of_nonneg hr0.1
  obtain ⟨h1, h2⟩ := sorted_countP ids hs r hr
  refine ⟨by omega, ?_, ?_⟩
  · rw [batchOffset_eq_countP ids counts (fun x hx => (hb x hx).1) hcount, hcast]
    exact h1
  · rw [batchOffset_eq_countP ids counts (fun x hx => (hb x hx).1) hcount, Nat.cast_succ,
      hcast]
    exact h2

end BBoxTransform

/-! ## The row written by the kernel and the pipeline of the specification -/

namespace BBoxTransform

variable {K : Type}

section PipelineLemmas

variable [LinearOrderedField K] [FloorRing K]

omit [FloorRing K] in
theorem leftCols4_eq_onLinearCoords (f : K → K) (row : List K) :
    leftCols4 f row = onLinearCoords f row := by
  match row with
  | [] => rfl
  | [a] => simp [leftCols4, onLinearCoords, List.range_succ]
  | [a, b] => simp [leftCols4, onLinearCoords, List.range_succ]
  | [a, b, c] => simp [leftCols4, onLinearCoords, List.range_succ]
  | a :: b :: c :: d :: rest =>
    simp only [leftCols4, onLinearCoords]
    apply List.ext_getElem
    · simp
    · intro i h1 h2
      match i with
      | 0 => simp
      | 1 => simp
      | 2 => simp
      | 3 => simp
      | i + 4 =>
        have hi : i < rest.length := by simpa using h2
        simp [List.getD_eq_getElem?_getD, List.getElem?_eq_getElem hi]

omit [FloorRing K] [LinearOrderedField K] in
theorem boxRow_eq_specBox (roi_in : Tensor K) (box_dim roi_cols r : Nat)
    (h : roi_cols = box_dim ∨ roi_cols = box_dim + 1) :
    boxRow roi_in roi_cols box_dim r = specBox roi_in box_dim roi_cols r := by
  unfold boxRow specBox tableRow
  rcases h with h | h
  · subst h
    simp
  · subst h
    simp only [if_true, Nat.add_sub_cancel_left]
    apply List.ext_getElem
    · simp
    · intro i h1 h2
      simp [Nat.add_comm]

omit [FloorRing K] [LinearOrderedField K] in
theorem deltaRow_eq_specDelta (delta_in : Tensor K) (box_dim delta_cols k r : Nat)
    (h : k * box_dim + box_dim ≤ delta_cols) :
    deltaRow delta_in delta_cols box_dim k r = specDelta delta_in box_dim delta_cols k r := by
  unfold deltaRow specDelta tableRow
  apply List.ext_getElem
  · simp; omega
  · intro i h1 h2
    simp

theorem refinedRow_eq_spec (cfg : Config K) (roi_in delta_in iminfo_in : Tensor K)
    (roi_cols delta_cols b k r : Nat)
    (hcols : roi_cols = cfg.box_dim ∨ roi_cols = cfg.box_dim + 1)
    (hk : k * cfg.box_dim + cfg.box_dim ≤ delta_cols) :
    refinedRow cfg roi_in delta_in iminfo_in roi_cols delta_cols b k r =
      specRefinedRow cfg roi_in delta_in iminfo_in roi_cols delta_cols b k r := by
  simp only [refinedRow, specRefinedRow, leftCols4_eq_onLinearCoords,
    boxRow_eq_specBox _ _ _ _ hcols, deltaRow_eq_specDelta _ _ _ _ _ hk]
  simp [tableRow, List.range_succ]

omit [FloorRing K] [LinearOrderedField K] in
theorem coeff_of_grid (sizes : List Nat) (g : Nat → Nat → K) (cols r c : Nat) (hc : c < cols) :
    (Tensor.mk sizes fun idx => g (idx / cols) (idx % cols)).coeff cols r c = g r c := by
  have hpos : 0 < cols := by omega
  have h1 : (r * cols + c) / cols = r := by
    rw [Nat.mul_comm, Nat.mul_add_div hpos, Nat.div_eq_of_lt hc, Nat.add_zero]
  have h2 : (r * cols + c) % cols = c := by
    rw [Nat.mul_comm, Nat.mul_add_mod, Nat.mod_eq_of_lt hc]
  simp only [Tensor.coeff, h1, h2]

/-- The cell of `box_out` for a row in the range of batch `i`, class `k`, coordinate `j`. -/
theorem boxOut_coeff (cfg : Config K) (roi_in delta_in iminfo_in : Tensor K)
    (roi_cols delta_cols batch_size : Nat) (counts : List Nat)
    (hmod : delta_cols % cfg.box_dim = 0)
    (i : Nat) (hi : i < batch_size) (r : Nat) (h1 : batchOffset counts i ≤ r)
    (h2 : r < batchOffset counts (i + 1)) (k : Nat) (hk : k < delta_cols / cfg.box_dim)
    (j : Nat) (hj : j < cfg.box_dim) :
    (boxOut cfg roi_in delta_in iminfo_in roi_cols delta_cols batch_size counts).coeff
        delta_cols r (k * cfg.box_dim + j) =
      (refinedRow cfg roi_in delta_in iminfo_in roi_cols delta_cols i k r).getD j 0 := by
  have hpos := cfg.box_dim_pos
  have hdc : delta_cols / cfg.box_dim * cfg.box_dim = delta_cols := Nat.div_mul_cancel
    (Nat.dvd_of_mod_eq_zero hmod)
  have hlt : k * cfg.box_dim + j < delta_cols / cfg.box_dim * cfg.box_dim := by
    have : (k + 1) * cfg.box_dim ≤ delta_cols / cfg.box_dim * cfg.box_dim :=
      Nat.mul_le_mul_right _ hk
    rw [Nat.succ_mul] at this
    omega
  have hdiv : (k * cfg.box_dim + j) / cfg.box_dim = k := by
    rw [Nat.mul_comm, Nat.mul_add_div hpos, Nat.div_eq_of_lt hj, Nat.add_zero]
  have hmod' : (k * cfg.box_dim + j) % cfg.box_dim = j := by
    rw [Nat.mul_comm, Nat.mul_add_mod, Nat.mod_eq_of_lt hj]
  unfold boxOut
  rw [coeff_of_grid _ _ _ _ _ (by omega),
    batchLoop_apply cfg roi_in delta_in iminfo_in roi_cols delta_cols _ counts batch_size i hi
      r _ h1 h2 hlt, hdiv, hmod']

end PipelineLemmas

end BBoxTransform

/-! ## Claims on the partition into batches -/

namespace BBoxTransform

theorem sampleRois_batchIds : roiBatchIds sampleRois 5 3 = [0, 0, 1] := by
  simp [sampleRois, roiBatchIds, Tensor.coeff, Tensor.ofList, toInt, List.range_succ]

theorem sampleRois_partition : batchPartitioner sampleRois 4 5 3 2 = .ok [2, 1] := by
  unfold batchPartitioner
  rw [if_neg (by decide), sampleRois_batchIds]
  rfl

/-- The kernel accepts the sample input; its counts are `[2, 1]`. -/
theorem sample_kernel_ok :
    BBoxTransformCPUKernel sampleConfig sampleRois sampleDeltas sampleImInfo
      = .ok (boxOut sampleConfig sampleRois sampleDeltas sampleImInfo 5 4 2 [2, 1],
          batchSplits 2 [2, 1]) := by
  rw [kernel_ok_iff]
  exact ⟨3, 5, 4, 2, [2, 1], rfl, Or.inr rfl, rfl, rfl, rfl, rfl, sampleRois_partition, rfl,
    rfl⟩

/-- C1. For every input the kernel accepts, with `N` box rows and `batch_size` rows of
    image information, the second return value has exactly `batch_size` entries, every entry
    is a non-negative integer, and the entries sum to `N`. -/
theorem perBatchCounts_sum {K : Type} [LinearOrderedField K] [FloorRing K] (cfg : Config K)
    (roi_in delta_in iminfo_in out splits : Tensor K) (N batch_size : Nat)
    (hN : roi_in.sizes[0]? = some N) (hB : iminfo_in.sizes[0]? = some batch_size)
    (hok : BBoxTransformCPUKernel cfg roi_in delta_in iminfo_in = .ok (out, splits)) :
    splits.sizes = [batch_size] ∧
      (∀ i, i < batch_size → ∃ n : Nat, splits.data i = (n : K)) ∧
      ((List.range batch_size).map splits.data).sum = (N : K) := by
  obtain ⟨N', roi_cols, delta_cols, batch_size', counts, hroi, -, -, -, him, -, hcounts, -,
    hsplits⟩ := (kernel_ok_iff cfg roi_in delta_in iminfo_in out splits).mp hok
  have hN' : N' = N := by rw [hroi] at hN; simpa using hN
  have hB' : batch_size' = batch_size := by rw [him] at hB; simpa using hB
  subst hN' hB'
  obtain ⟨hlen, hsum⟩ := batchPartitioner_ok _ _ _ _ _ _ hcounts
  subst hsplits
  refine ⟨rfl, fun i _ => ⟨counts.getD i 0, rfl⟩, ?_⟩
  simp only [batchSplits]
  rw [← hlen, sum_range_getD_cast, hsum]

/-- Witness for C1: two boxes of batch 0 and one of batch 1, two images. -/
theorem perBatchCounts_sum_witness :
    ∃ out splits : Tensor ℚ,
      BBoxTransformCPUKernel sampleConfig sampleRois sampleDeltas sampleImInfo
        = .ok (out, splits) ∧
      splits.sizes = [2] ∧ (∀ i, i < 2 → ∃ n : Nat, splits.data i = (n : ℚ)) ∧
      ((List.range 2).map splits.data).sum = ((3 : Nat) : ℚ) :=
  ⟨_, _, sample_kernel_ok,
    perBatchCounts_sum sampleConfig sampleRois sampleDeltas sampleImInfo _ _ 3 2 rfl rfl
      sample_kernel_ok⟩

/-- C2. For every accepted input whose batch indices (column 0 converted to `int`) are
    non-decreasing, or that has no batch-index column, for every box row `r`, every class
    `k < num_classes` and every coordinate `j < box_dim`, column `k * box_dim + j` of row `r`
    of the output is coordinate `j` of the pipeline of the specification run with the image
    information of the batch of row `r`; the output has the shape of the delta table.  That
    the indices lie in `[0, batch_size)` follows from the acceptance. -/
theorem refinedBoxes_eq_pipeline {K : Type} [LinearOrderedField K] [FloorRing K]
    (cfg : Config K) (roi_in delta_in iminfo_in out splits : Tensor K)
    (N roi_cols delta_cols : Nat)
    (hroi : roi_in.sizes = [N, roi_cols]) (hdelta : delta_in.sizes = [N, delta_cols])
    (hok : BBoxTransformCPUKernel cfg roi_in delta_in iminfo_in = .ok (out, splits))
    (hsorted : roi_cols = cfg.box_dim + 1 →
      (roiBatchIds roi_in roi_cols N).Pairwise (· ≤ ·))
    (r : Nat) (hr : r < N) (k : Nat) (hk : k < delta_cols / cfg.box_dim)
    (j : Nat) (hj : j < cfg.box_dim) :
    out.sizes = delta_in.sizes ∧
      out.coeff delta_cols r (k * cfg.box_dim + j) =
        (specRefinedRow cfg roi_in delta_in iminfo_in roi_cols delta_cols
          (rowBatch roi_in cfg.box_dim roi_cols r) k r).getD j 0 := by
  obtain ⟨N', roi_cols', delta_cols', batch_size, counts, hroi', hcols, hdelta', hmod, -, -,
    hcounts, hout, -⟩ := (kernel_ok_iff cfg roi_in delta_in iminfo_in out splits).mp hok
  rw [hroi] at hroi'
  rw [hdelta] at hdelta'
  obtain ⟨rfl, rfl⟩ : N = N' ∧ roi_cols = roi_cols' := by simpa using hroi'
  obtain rfl : delta_cols = delta_cols' := by simpa using hdelta'
  subst hout
  refine ⟨rfl, ?_⟩
  have hkle : k * cfg.box_dim + cfg.box_dim ≤ delta_cols := by
    have h1 : (k + 1) * cfg.box_dim ≤ delta_cols / cfg.box_dim * cfg.box_dim :=
      Nat.mul_le_mul_right _ hk
    have h2 := Nat.div_mul_le_self delta_cols cfg.box_dim
    rw [Nat.succ_mul] at h1
    omega
  rw [← refinedRow_eq_spec cfg roi_in delta_in iminfo_in roi_cols delta_cols _ k r hcols hkle]
  unfold batchPartitioner at hcounts
  by_cases hbc : roi_cols = cfg.box_dim
  · rw [if_pos hbc] at hcounts
    simp only [bind_eq_ok_iff, TORCH_CHECK_eq_ok, pure, Except.pure, Except.ok.injEq]
      at hcounts
    obtain ⟨_, hb, hc⟩ := hcounts
    subst hb
    have hc' : counts = [N] := by rw [← hc]; simp
    subst hc'
    have hb0 : rowBatch roi_in cfg.box_dim roi_cols r = 0 := by simp [rowBatch, hbc]
    rw [hb0]
    exact boxOut_coeff cfg roi_in delta_in iminfo_in roi_cols delta_cols 1 [N] hmod 0
      (by omega) r (by simp [batchOffset]) (by simpa [batchOffset] using hr) k hk j hj
  · rw [if_neg hbc] at hcounts
    have hcols' : roi_cols = cfg.box_dim + 1 := by
      rcases hcols with h | h
      · exact absurd h hbc
      · exact h
    have hlen : r < (roiBatchIds roi_in roi_cols N).length := by
      rw [roiBatchIds_length]; exact hr
    obtain ⟨h0, h1, h2⟩ := row_in_batch_range batch_size _ counts hcounts (hsorted hcols') r hlen
    have hid : (roiBatchIds roi_in roi_cols N)[r] = toInt (roi_in.coeff roi_cols r 0) := by
      simp [roiBatchIds]
    have hb : rowBatch roi_in cfg.box_dim roi_cols r = (roiBatchIds roi_in roi_cols N)[r].toNat := by
      simp [rowBatch, hbc, hid]
    rw [hb]
    exact boxOut_coeff cfg roi_in delta_in iminfo_in roi_cols delta_cols batch_size counts hmod
      _ h0 r h1 h2 k hk j hj

/-- Witness for C2: row 2 of the sample input belongs to batch 1 (scale 2); its box
    `(5, 5, 6, 6)` is refined to `(5/2, 5/2, 3, 3)`. -/
theorem refinedBoxes_eq_pipeline_witness :
    ∃ out splits : Tensor ℚ,
      BBoxTransformCPUKernel sampleConfig sampleRois sampleDeltas sampleImInfo
        = .ok (out, splits) ∧
      out.sizes = [3, 4] ∧ out.coeff 4 2 (0 * 4 + 2) = 3 := by
  have h := refinedBoxes_eq_pipeline sampleConfig sampleRois sampleDeltas sampleImInfo _ _
    3 5 4 rfl rfl sample_kernel_ok (fun _ => by rw [sampleRois_batchIds]; decide)
    2 (by decide) 0 (by decide) 2 (by decide)
  refine ⟨_, _, sample_kernel_ok, h.1, ?_⟩
  refine h.2.trans ?_
  norm_num [specRefinedRow, rowBatch, sampleConfig, axisAlignedConfig, Config.box_dim,
    sampleRois, sampleDeltas, sampleImInfo, Tensor.ofList, Tensor.coeff, tableRow, specBox,
    specDelta, onLinearCoords, boxDeltaTransformer, boxClipper, clamp, sampleExp, toInt,
    List.range_succ]

/-- The check of the counting loop fires at the first index that is not below `batch_size`
    when the indices before it lie in `[0, batch_size)`. -/
theorem countRois_invalidInput (batch_size : Nat) (pre post : List Int) (id : Int)
    (counts : List Nat) (hpre : ∀ x ∈ pre, 0 ≤ x ∧ x < (batch_size : Int))
    (hid : (batch_size : Int) ≤ id) :
    countRois batch_size (pre ++ id :: post) counts = .error .invalidInput := by
  induction pre generalizing counts with
  | nil =>
    have : ¬ id < (batch_size : Int) := by omega
    simp [countRois, this]
  | cons a t ih =>
    have ha := hpre a (List.mem_cons_self _ _)
    simp only [List.cons_append, countRois, ha.1, ha.2, if_true]
    exact ih _ (fun x hx => hpre x (List.mem_cons_of_mem _ hx))

/-- A batch index that is not below `batch_size` never lets the kernel return an output. -/
theorem kernel_no_output_of_index_ge {K : Type} [LinearOrderedField K] [FloorRing K]
    (cfg : Config K) (roi_in delta_in iminfo_in out splits : Tensor K)
    (N batch_size : Nat) (hroi : roi_in.sizes = [N, cfg.box_dim + 1])
    (him : iminfo_in.sizes[0]? = some batch_size)
    (r : Nat) (hr : r < N) (hge : (batch_size : Int) ≤ toInt (roi_in.coeff (cfg.box_dim + 1) r 0)) :
    BBoxTransformCPUKernel cfg roi_in delta_in iminfo_in ≠ .ok (out, splits) := by
  intro hok
  obtain ⟨N', roi_cols, delta_cols, batch_size', counts, hroi', -, -, -, him', -, hcounts, -,
    -⟩ := (kernel_ok_iff cfg roi_in delta_in iminfo_in out splits).mp hok
  rw [hroi] at hroi'
  obtain ⟨rfl, rfl⟩ : N = N' ∧ cfg.box_dim + 1 = roi_cols := by simpa using hroi'
  have hB : batch_size' = batch_size := by rw [him'] at him; simpa using him
  subst hB
  unfold batchPartitioner at hcounts
  rw [if_neg (by omega)] at hcounts
  have hmem : toInt (roi_in.coeff (cfg.box_dim + 1) r 0) ∈
      roiBatchIds roi_in (cfg.box_dim + 1) N := by
    simp only [roiBatchIds, List.mem_map, List.mem_range]
    exact ⟨r, hr, rfl⟩
  have := (countRois_ok_bounds _ _ _ _ hcounts _ hmem).2
  omega

/-- C3 (evaluation at the failing input). The box table has the batch indices `-1` and `1`
    and there is one image, so the second index is not below `batch_size`; the kernel does
    not fail with an invalid-input error: the counter of index `-1` is incremented first,
    which is an access out of the bounds of `num_rois_per_batch`. -/
theorem index_check_after_negative_index :
    ((1 : Nat) : Int) ≤ toInt (negativeIndexRois.coeff 5 1 0) ∧
      BBoxTransformCPUKernel sampleConfig negativeIndexRois twoRowDeltas oneImageInfo =
        .error .outOfBounds := by
  have hids : roiBatchIds negativeIndexRois 5 2 = [-1, 1] := by
    norm_num [negativeIndexRois, roiBatchIds, Tensor.coeff, Tensor.ofList, toInt,
      List.range_succ, Int.ceil_neg]
  constructor
  · norm_num [negativeIndexRois, Tensor.coeff, Tensor.ofList, toInt]
  · rw [kernel_of_shapes sampleConfig negativeIndexRois twoRowDeltas oneImageInfo 2 5 4 1 rfl
      (Or.inr rfl) rfl rfl rfl rfl]
    have h : batchPartitioner negativeIndexRois 4 5 2 1 = .error .outOfBounds := by
      unfold batchPartitioner
      rw [if_neg (by decide), hids]
      rfl
    have h' : batchPartitioner negativeIndexRois sampleConfig.box_dim 5 2 1 =
        .error .outOfBounds := h
    rw [h']

/-- A box table with exactly `box_dim` columns and one image: the kernel returns, the counts
    are `[N]`, and every row is written in the iteration of batch 0. -/
theorem single_batch_kernel {K : Type} [LinearOrderedField K] [FloorRing K]
    (cfg : Config K) (roi_in delta_in iminfo_in : Tensor K) (N delta_cols : Nat)
    (hroi : roi_in.sizes = [N, cfg.box_dim])
    (hdelta : delta_in.sizes = [N, delta_cols])
    (hmod : delta_cols % cfg.box_dim = 0)
    (him : iminfo_in.sizes = [1, 3])
    (hw : cfg.weights.length = 4) :
    BBoxTransformCPUKernel cfg roi_in delta_in iminfo_in =
        .ok (boxOut cfg roi_in delta_in iminfo_in cfg.box_dim delta_cols 1 [N],
          batchSplits 1 [N]) ∧
      ∀ r k j, r < N → k < delta_cols / cfg.box_dim → j < cfg.box_dim →
        (boxOut cfg roi_in delta_in iminfo_in cfg.box_dim delta_cols 1 [N]).coeff delta_cols r
            (k * cfg.box_dim + j) =
          (refinedRow cfg roi_in delta_in iminfo_in cfg.box_dim delta_cols 0 k r).getD j 0 := by
  have hk := kernel_of_shapes cfg roi_in delta_in iminfo_in N cfg.box_dim delta_cols 1
    hroi (Or.inl rfl) hdelta hmod him hw
  have hp : batchPartitioner roi_in cfg.box_dim cfg.box_dim N 1 = .ok [N] := by
    simp [batchPartitioner, TORCH_CHECK, bind, Except.bind, pure, Except.pure]
  rw [hp] at hk
  refine ⟨hk, ?_⟩
  intro r k j hr hkk hj
  exact boxOut_coeff cfg roi_in delta_in iminfo_in cfg.box_dim delta_cols 1 [N] hmod 0
    (by omega) r (by simp [batchOffset]) (by simpa [batchOffset] using hr) k hkk j hj

/-- C4. For a box table with exactly `box_dim` columns whose other shapes are valid, the
    kernel fails when `batch_size` is not 1; when it is 1, the kernel returns, the counts are
    `[N]`, and every row is processed with row 0 of the image information. -/
theorem no_batch_column {K : Type} [LinearOrderedField K] [FloorRing K]
    (cfg : Config K) (roi_in delta_in iminfo_in : Tensor K) (N delta_cols batch_size : Nat)
    (hroi : roi_in.sizes = [N, cfg.box_dim])
    (hdelta : delta_in.sizes = [N, delta_cols])
    (hmod : delta_cols % cfg.box_dim = 0)
    (him : iminfo_in.sizes = [batch_size, 3])
    (hw : cfg.weights.length = 4) :
    (batch_size ≠ 1 →
      BBoxTransformCPUKernel cfg roi_in delta_in iminfo_in = .error .invalidInput) ∧
    (batch_size = 1 →
      ∃ out splits, BBoxTransformCPUKernel cfg roi_in delta_in iminfo_in = .ok (out, splits) ∧
        splits.sizes = [1] ∧ splits.data 0 = (N : K) ∧
        ∀ r k j, r < N → k < delta_cols / cfg.box_dim → j < cfg.box_dim →
          out.coeff delta_cols r (k * cfg.box_dim + j) =
            (specRefinedRow cfg roi_in delta_in iminfo_in cfg.box_dim delta_cols 0 k r).getD
              j 0) := by
  constructor
  · intro hb
    have hp : batchPartitioner roi_in cfg.box_dim cfg.box_dim N batch_size =
        .error .invalidInput := by
      simp [batchPartitioner, TORCH_CHECK, hb, bind, Except.bind]
    rw [kernel_of_shapes cfg roi_in delta_in iminfo_in N cfg.box_dim delta_cols batch_size
      hroi (Or.inl rfl) hdelta hmod him hw, hp]
  · intro hb
    subst hb
    obtain ⟨hok, hcell⟩ := single_batch_kernel cfg roi_in delta_in iminfo_in N delta_cols hroi
      hdelta hmod him hw
    refine ⟨_, _, hok, rfl, by simp [batchSplits], ?_⟩
    intro r k j hr hkk hj
    have hkle : k * cfg.box_dim + cfg.box_dim ≤ delta_cols := by
      have h1 : (k + 1) * cfg.box_dim ≤ delta_cols / cfg.box_dim * cfg.box_dim :=
        Nat.mul_le_mul_right _ hkk
      have h2 := Nat.div_mul_le_self delta_cols cfg.box_dim
      rw [Nat.succ_mul] at h1
      omega
    rw [← refinedRow_eq_spec cfg roi_in delta_in iminfo_in cfg.box_dim delta_cols 0 k r
      (Or.inl rfl) hkle]
    exact hcell r k j hr hkk hj

/-- Witness for C4: two boxes without a batch-index column and one image of `10 x 10`; with
    two images the kernel fails. -/
theorem no_batch_column_witness :
    BBoxTransformCPUKernel sampleConfig twoBoxes twoRowDeltas sampleImInfo =
        .error .invalidInput ∧
      ∃ out splits : Tensor ℚ,
        BBoxTransformCPUKernel sampleConfig twoBoxes twoRowDeltas oneImageInfo =
          .ok (out, splits) ∧
        splits.sizes = [1] ∧ splits.data 0 = 2 ∧ out.coeff 4 1 (0 * 4 + 2) = 10 := by
  constructor
  · exact (no_batch_column sampleConfig twoBoxes twoRowDeltas sampleImInfo 2 4 2 rfl rfl rfl
      rfl rfl).1 (by decide)
  · obtain ⟨out, splits, hok, h1, h2, h3⟩ :=
      (no_batch_column sampleConfig twoBoxes twoRowDeltas oneImageInfo 2 4 1 rfl rfl rfl rfl
        rfl).2 rfl
    refine ⟨out, splits, hok, h1, by simpa using h2, ?_⟩
    refine (h3 1 0 2 (by decide) (by decide) (by decide)).trans ?_
    norm_num [specRefinedRow, sampleConfig, axisAlignedConfig, Config.box_dim,
      twoBoxes, twoRowDeltas, oneImageInfo, Tensor.ofList, Tensor.coeff, tableRow, specBox,
      specDelta, onLinearCoords, boxDeltaTransformer, boxClipper, clamp, sampleExp, toInt,
      List.range_succ]

/-! ## Claims on the checks of the shapes -/

/-- C5. With `box_dim` 5 in rotated mode and 4 otherwise, the kernel fails with an
    invalid-input error whenever one of these holds: the box table is not of rank 2, or its
    column count is neither `box_dim` nor `box_dim + 1`; the row count of the delta table
    differs from the one of the box table; the column count of the delta table is not a
    multiple of `box_dim`; the image information does not have exactly 3 columns; the
    weights do not have exactly 4 entries. -/
theorem kernel_rejects_bad_shapes {K : Type} [LinearOrderedField K] [FloorRing K]
    (cfg : Config K) (roi_in delta_in iminfo_in : Tensor K)
    (h : roi_in.dim ≠ 2 ∨
      (roi_in.sizes[1]? ≠ some cfg.box_dim ∧ roi_in.sizes[1]? ≠ some (cfg.box_dim + 1)) ∨
      delta_in.sizes[0]? ≠ roi_in.sizes[0]? ∨
      (∀ c, delta_in.sizes[1]? = some c → c % cfg.box_dim ≠ 0) ∨
      iminfo_in.sizes[1]? ≠ some 3 ∨
      cfg.weights.length ≠ 4) :
    cfg.box_dim = (if cfg.rotated then 5 else 4) ∧
      BBoxTransformCPUKernel cfg roi_in delta_in iminfo_in = .error .invalidInput := by
  refine ⟨rfl, ?_⟩
  by_contra hne
  obtain ⟨N, roi_cols, delta_cols, batch_size, hroi, hcols, hdelta, hmod, him, hw⟩ :=
    kernel_shapes_of_ne_invalidInput cfg roi_in delta_in iminfo_in hne
  rcases h with h | h | h | h | h | h
  · exact h (by simp [Tensor.dim, hroi])
  · rcases hcols with hc | hc
    · exact h.1 (by simp [hroi, hc])
    · exact h.2 (by simp [hroi, hc])
  · exact h (by simp [hroi, hdelta])
  · exact h delta_cols (by simp [hdelta]) hmod
  · exact h (by simp [him])
  · exact h hw

/-- Witness for C5: five weights in rotated mode are rejected. -/
theorem kernel_rejects_bad_shapes_witness :
    fiveWeightConfig.box_dim = 5 ∧
      BBoxTransformCPUKernel fiveWeightConfig sampleRois sampleDeltas sampleImInfo =
        .error .invalidInput :=
  kernel_rejects_bad_shapes fiveWeightConfig sampleRois sampleDeltas sampleImInfo
    (Or.inr (Or.inr (Or.inr (Or.inr (Or.inr (by decide))))))

/-! ## Claims on the helpers modelled from the specification -/

theorem clamp_bounds {K : Type} [LinearOrderedField K] (x hi : K) (h : 0 ≤ hi) :
    0 ≤ clamp x 0 hi ∧ clamp x 0 hi ≤ hi := by
  unfold clamp
  exact ⟨le_max_left _ _, max_le h (min_le_right _ _)⟩

theorem clamp_mono {K : Type} [LinearOrderedField K] (x y hi : K) (h : x ≤ y) :
    clamp x 0 hi ≤ clamp y 0 hi := by
  unfold clamp
  exact max_le_max (le_refl _) (min_le_min h (le_refl _))

/-- C6 (counterexample). The bounds fail for the box `(5, 5, 3, 3)` in a `10 x 10` image,
    whose clipped `x1 = 5` exceeds its clipped `x2 = 3`, and for the box `(0, 0, 0, 0)` in a
    `0 x 0` image under the plus-one convention, where `img_w - ε = -1`. -/
theorem boxClipper_bounds_counterexample :
    ¬ ClippedWithin (boxClipper [(5 : ℚ), 5, 3, 3] 10 10 false) 10 10 false ∧
      ¬ ClippedWithin (boxClipper [(0 : ℚ), 0, 0, 0] 0 0 true) 0 0 true := by
  constructor <;> norm_num [ClippedWithin, boxClipper, clamp]

/-- C6 (amended). For every axis-aligned box with `x1 ≤ x2` and `y1 ≤ y2`, lying anywhere,
    and every image size with `ε ≤ img_w` and `ε ≤ img_h`, the clipped box satisfies
    `0 ≤ x1 ≤ x2 ≤ img_w - ε` and `0 ≤ y1 ≤ y2 ≤ img_h - ε`. -/
theorem boxClipper_bounds {K : Type} [LinearOrderedField K]
    (x1 y1 x2 y2 : K) (img_h img_w : Int) (legacy_plus_one : Bool)
    (hx : x1 ≤ x2) (hy : y1 ≤ y2)
    (hw : (if legacy_plus_one then 1 else 0 : K) ≤ (img_w : K))
    (hh : (if legacy_plus_one then 1 else 0 : K) ≤ (img_h : K)) :
    ClippedWithin (boxClipper [x1, y1, x2, y2] img_h img_w legacy_plus_one) img_h img_w
      legacy_plus_one := by
  have hw' : (0 : K) ≤ (img_w : K) - (if legacy_plus_one then 1 else 0 : K) := sub_nonneg.mpr hw
  have hh' : (0 : K) ≤ (img_h : K) - (if legacy_plus_one then 1 else 0 : K) := sub_nonneg.mpr hh
  simp only [ClippedWithin, boxClipper, List.getD_cons_zero, List.getD_cons_succ]
  exact ⟨⟨(clamp_bounds x1 _ hw').1, clamp_mono x1 x2 _ hx, (clamp_bounds x2 _ hw').2⟩,
    ⟨(clamp_bounds y1 _ hh').1, clamp_mono y1 y2 _ hy, (clamp_bounds y2 _ hh').2⟩⟩

/-- Witness for C6: the box `(-3, 2, 14, 20)` in an image of width 10 and height 12 under
    the plus-one convention. -/
theorem boxClipper_bounds_witness :
    ClippedWithin (boxClipper [(-3 : ℚ), 2, 14, 20] 12 10 true) 12 10 true :=
  boxClipper_bounds (-3 : ℚ) 2 14 20 12 10 true (by norm_num) (by norm_num) (by norm_num)
    (by norm_num)

theorem boxDeltaTransformer_zero {K : Type} [LinearOrderedField K]
    (exp : K → K) (hexp : exp 0 = 1) (CLIP_MAX : K) (hclip : 0 ≤ CLIP_MAX)
    (x1 y1 x2 y2 wx wy ww wh : K) (legacy_plus_one : Bool) :
    boxDeltaTransformer exp [x1, y1, x2, y2] [0, 0, 0, 0] [wx, wy, ww, wh] CLIP_MAX
      legacy_plus_one = [x1, y1, x2, y2] := by
  simp only [boxDeltaTransformer, List.getD_cons_zero, List.getD_cons_succ, zero_div,
    min_eq_left hclip, hexp, zero_mul, zero_add, one_mul]
  refine congrArg₂ _ (by ring) (congrArg₂ _ (by ring) (congrArg₂ _ (by ring)
    (congrArg₂ _ (by ring) rfl)))

/-- C7. For every box, every weight tuple with non-zero entries and either setting of the
    plus-one convention, steps 1-6 applied with the delta `(0, 0, 0, 0)` return the box
    itself; `exp` is any function with `exp 0 = 1` and the bound of step 5 is
    non-negative. -/
theorem boxDeltaTransformer_zero_delta {K : Type} [LinearOrderedField K]
    (exp : K → K) (hexp : exp 0 = 1) (CLIP_MAX : K) (hclip : 0 ≤ CLIP_MAX)
    (x1 y1 x2 y2 wx wy ww wh : K)
    (_hwx : wx ≠ 0) (_hwy : wy ≠ 0) (_hww : ww ≠ 0) (_hwh : wh ≠ 0)
    (legacy_plus_one : Bool) :
    boxDeltaTransformer exp [x1, y1, x2, y2] [0, 0, 0, 0] [wx, wy, ww, wh] CLIP_MAX
      legacy_plus_one = [x1, y1, x2, y2] := by
  have hmin : min (0 : K) CLIP_MAX = 0 := min_eq_left hclip
  simp only [boxDeltaTransformer, List.getD_cons_zero, List.getD_cons_succ, zero_div, hmin,
    hexp, zero_mul, zero_add, one_mul]
  cases legacy_plus_one
  · simp only [Bool.false_eq_true, if_false]
    refine congrArg₂ _ (by ring) (congrArg₂ _ (by ring) (congrArg₂ _ (by ring)
      (congrArg₂ _ (by ring) rfl)))
  · simp only [if_true]
    refine congrArg₂ _ (by ring) (congrArg₂ _ (by ring) (congrArg₂ _ (by ring)
      (congrArg₂ _ (by ring) rfl)))

/-- Witness for C7: the box `(1, 2, 4, 8)` with weights `(10, 10, 5, 5)` under the plus-one
    convention. -/
theorem boxDeltaTransformer_zero_delta_witness :
    boxDeltaTransformer sampleExp [(1 : ℚ), 2, 4, 8] [0, 0, 0, 0] [10, 10, 5, 5] 4 true =
      [1, 2, 4, 8] :=
  boxDeltaTransformer_zero_delta sampleExp (by norm_num [sampleExp]) 4 (by norm_num)
    1 2 4 8 10 10 5 5 (by norm_num) (by norm_num) (by norm_num) (by norm_num) true

/-- C10. For every angle and every window with `angle_bound_lo < angle_bound_hi`, the
    enabled angle normalizer returns an angle `a` with
    `angle_bound_lo ≤ a < angle_bound_hi`. -/
theorem angleNormalizer_range {K : Type} [LinearOrderedField K] [FloorRing K]
    (angle_bound_lo angle_bound_hi : Int) (h : angle_bound_lo < angle_bound_hi)
    (new_angle : K) :
    (angle_bound_lo : K) ≤ angleNormalizer true angle_bound_lo angle_bound_hi new_angle ∧
      angleNormalizer true angle_bound_lo angle_bound_hi new_angle < (angle_bound_hi : K) := by
  have hp : (0 : K) < (angle_bound_hi : K) - (angle_bound_lo : K) := by
    rw [sub_pos]; exact_mod_cast h
  simp only [angleNormalizer, if_true]
  set p : K := (angle_bound_hi : K) - (angle_bound_lo : K) with hpdef
  set q : K := (new_angle - (angle_bound_lo : K)) / p with hqdef
  have hq : p * q = new_angle - (angle_bound_lo : K) := by
    rw [hqdef]; field_simp
  have h1 : ((⌊q⌋ : Int) : K) ≤ q := Int.floor_le q
  have h2 : q < ((⌊q⌋ : Int) : K) + 1 := Int.lt_floor_add_one q
  have h3 : p * ((⌊q⌋ : Int) : K) ≤ p * q := mul_le_mul_of_nonneg_left h1 hp.le
  have h4 : p * q < p * (((⌊q⌋ : Int) : K) + 1) := mul_lt_mul_of_pos_left h2 hp
  rw [← hq]
  constructor
  · linarith
  · have : p * (((⌊q⌋ : Int) : K) + 1) = p * ((⌊q⌋ : Int) : K) + p := by ring
    rw [this] at h4
    have hhi : (angle_bound_hi : K) = (angle_bound_lo : K) + p := by rw [hpdef]; ring
    rw [hhi]
    linarith

/-- Witness for C10: the angle 720 and the window `[-90, 90)`. -/
theorem angleNormalizer_range_witness :
    ((-90 : Int) : ℚ) ≤ angleNormalizer true (-90) 90 (720 : ℚ) ∧
      angleNormalizer true (-90) 90 (720 : ℚ) < ((90 : Int) : ℚ) :=
  angleNormalizer_range (-90) 90 (by decide) (720 : ℚ)

/-! ## End-to-end claims -/

theorem toInt_natCast_add_half {K : Type} [LinearOrderedField K] [FloorRing K] (n : Nat) :
    toInt ((n : K) + 1 / 2) = (n : Int) := by
  have h0 : (0 : K) ≤ (n : K) + 1 / 2 := by positivity
  unfold toInt
  rw [if_pos h0, Int.floor_eq_iff]
  constructor
  · push_cast; linarith
  · push_cast; linarith

theorem axisAlignedConfig_box_dim {K : Type} [LinearOrderedField K] [FloorRing K]
    (exp : K → K) (CLIP_MAX : K) (weights : List K) (apply_scale legacy_plus_one : Bool) :
    (axisAlignedConfig exp CLIP_MAX weights apply_scale legacy_plus_one).box_dim = 4 := rfl

/-- The row written for a single image at scale 1 with a zero delta, unit weights and no
    plus-one: the box clamped to the rounded image size. -/
theorem refinedRow_single_image {K : Type} [LinearOrderedField K] [FloorRing K]
    (exp : K → K) (hexp : exp 0 = 1) (CLIP_MAX : K) (hclip : 0 ≤ CLIP_MAX)
    (apply_scale : Bool) (roi_in delta_in iminfo_in : Tensor K) (r : Nat)
    (hs : iminfo_in.coeff 3 0 2 = 1) (hz : ∀ j, j < 4 → delta_in.coeff 4 r j = 0) :
    refinedRow (axisAlignedConfig exp CLIP_MAX [1, 1, 1, 1] apply_scale false) roi_in delta_in
        iminfo_in 4 4 0 0 r =
      [clamp (roi_in.coeff 4 r 0) 0 ((toInt (iminfo_in.coeff 3 0 1 + 1 / 2) : Int) : K),
       clamp (roi_in.coeff 4 r 1) 0 ((toInt (iminfo_in.coeff 3 0 0 + 1 / 2) : Int) : K),
       clamp (roi_in.coeff 4 r 2) 0 ((toInt (iminfo_in.coeff 3 0 1 + 1 / 2) : Int) : K),
       clamp (roi_in.coeff 4 r 3) 0 ((toInt (iminfo_in.coeff 3 0 0 + 1 / 2) : Int) : K)] := by
  have hd : deltaRow delta_in 4 4 0 r = [0, 0, 0, 0] := by
    simp [deltaRow, List.range_succ, hz]
  have hb : leftCols4 (fun x => x / (1 : K)) (boxRow roi_in 4 4 r) =
      [roi_in.coeff 4 r 0, roi_in.coeff 4 r 1, roi_in.coeff 4 r 2, roi_in.coeff 4 r 3] := by
    simp [leftCols4, boxRow, List.range_succ]
  have ha : (if apply_scale = true then (1 : K) else 1) = 1 := by split <;> rfl
  simp only [refinedRow, axisAlignedConfig, Config.box_dim, hs, hd, ha, Bool.false_eq_true,
    if_false]
  rw [hb, boxDeltaTransformer_zero exp hexp CLIP_MAX hclip]
  simp [boxClipper, leftCols4, List.range_succ]

/-- C8 (counterexample). One box `(0, 0, 11, 11)` in an image whose stored height and
    width are `21/2` at scale 1: the kernel rounds the image size to 11, so the output keeps
    `x2 = 11`, whereas clamping to `[0, W]` gives `21/2`. -/
theorem single_image_clamp_counterexample :
    ∃ out splits : Tensor ℚ,
      BBoxTransformCPUKernel sampleConfig wideBox oneRowDeltas halfPixelImage =
        .ok (out, splits) ∧
      wideBox.coeff 4 0 0 ≤ wideBox.coeff 4 0 2 ∧ wideBox.coeff 4 0 1 ≤ wideBox.coeff 4 0 3 ∧
      out.coeff 4 0 2 = 11 ∧
      clamp (wideBox.coeff 4 0 2) 0 (halfPixelImage.coeff 3 0 1) = 21 / 2 ∧
      out.coeff 4 0 2 ≠ clamp (wideBox.coeff 4 0 2) 0 (halfPixelImage.coeff 3 0 1) := by
  obtain ⟨hok, hcell⟩ := single_batch_kernel sampleConfig wideBox oneRowDeltas halfPixelImage
    1 4 rfl rfl rfl rfl rfl
  have hrow := refinedRow_single_image sampleExp (by norm_num [sampleExp]) 4 (by norm_num)
    false wideBox oneRowDeltas halfPixelImage 0 (by norm_num [halfPixelImage, Tensor.ofList,
      Tensor.coeff]) (by intro j _; simp [oneRowDeltas, Tensor.ofList, Tensor.coeff])
  have h2 := hcell 0 0 2 (by decide) (by decide) (by decide)
  have hval : (boxOut sampleConfig wideBox oneRowDeltas halfPixelImage sampleConfig.box_dim 4
      1 [1]).coeff 4 0 2 = 11 := by
    refine h2.trans ?_
    have hrow' : refinedRow sampleConfig wideBox oneRowDeltas halfPixelImage 4 4 0 0 0 = _ :=
      hrow
    have hrow'' : refinedRow sampleConfig wideBox oneRowDeltas halfPixelImage
        sampleConfig.box_dim 4 0 0 0 = _ := hrow'
    rw [hrow'']
    norm_num [wideBox, halfPixelImage, Tensor.ofList, Tensor.coeff, clamp, toInt]
  have hclamp : clamp (wideBox.coeff 4 0 2) 0 (halfPixelImage.coeff 3 0 1) = 21 / 2 := by
    norm_num [wideBox, halfPixelImage, Tensor.ofList, Tensor.coeff, clamp]
  refine ⟨_, _, hok, ?_, ?_, hval, hclamp, ?_⟩
  · norm_num [wideBox, Tensor.ofList, Tensor.coeff]
  · norm_num [wideBox, Tensor.ofList, Tensor.coeff]
  · rw [hval, hclamp]; norm_num

/-- C8 (amended). For a single image (one row of image information `(H, W, 1)`, no
    batch-index column), axis-aligned mode without plus-one, weights `(1, 1, 1, 1)` and
    all-zero deltas with one class: the kernel returns, the counts are `[N]`, and for every
    box with `x1 ≤ x2` and `y1 ≤ y2` the output row is the box with `x1, x2` clamped to
    `[0, img_w]` and `y1, y2` clamped to `[0, img_h]`, where `img_w` and `img_h` are
    `W + 1/2` and `H + 1/2` truncated toward zero. -/
theorem single_image_zero_delta {K : Type} [LinearOrderedField K] [FloorRing K]
    (exp : K → K) (hexp : exp 0 = 1) (CLIP_MAX : K) (hclip : 0 ≤ CLIP_MAX)
    (apply_scale : Bool) (roi_in delta_in iminfo_in : Tensor K) (N : Nat) (H W : K)
    (hroi : roi_in.sizes = [N, 4]) (hdelta : delta_in.sizes = [N, 4])
    (him : iminfo_in.sizes = [1, 3])
    (hH : iminfo_in.coeff 3 0 0 = H) (hW : iminfo_in.coeff 3 0 1 = W)
    (hs : iminfo_in.coeff 3 0 2 = 1)
    (hz : ∀ r j, r < N → j < 4 → delta_in.coeff 4 r j = 0) :
    ∃ out splits,
      BBoxTransformCPUKernel (axisAlignedConfig exp CLIP_MAX [1, 1, 1, 1] apply_scale false)
        roi_in delta_in iminfo_in = .ok (out, splits) ∧
      splits.sizes = [1] ∧ splits.data 0 = (N : K) ∧
      ∀ r, r < N → roi_in.coeff 4 r 0 ≤ roi_in.coeff 4 r 2 →
        roi_in.coeff 4 r 1 ≤ roi_in.coeff 4 r 3 →
        (List.range 4).map (out.coeff 4 r) =
          [clamp (roi_in.coeff 4 r 0) 0 ((toInt (W + 1 / 2) : Int) : K),
           clamp (roi_in.coeff 4 r 1) 0 ((toInt (H + 1 / 2) : Int) : K),
           clamp (roi_in.coeff 4 r 2) 0 ((toInt (W + 1 / 2) : Int) : K),
           clamp (roi_in.coeff 4 r 3) 0 ((toInt (H + 1 / 2) : Int) : K)] := by
  have hbd := axisAlignedConfig_box_dim exp CLIP_MAX [1, 1, 1, 1] apply_scale false
  obtain ⟨hok, hcell⟩ := single_batch_kernel
    (axisAlignedConfig exp CLIP_MAX [1, 1, 1, 1] apply_scale false) roi_in delta_in iminfo_in
    N 4 (by rw [hbd, hroi]) hdelta (by rw [hbd]) him rfl
  simp only [hbd] at hok hcell
  refine ⟨_, _, hok, rfl, by simp [batchSplits], ?_⟩
  intro r hr _ _
  have hrow := refinedRow_single_image exp hexp CLIP_MAX hclip apply_scale roi_in delta_in
    iminfo_in r hs (fun j hj => hz r j hr hj)
  rw [hH, hW] at hrow
  have h0 := hcell r 0 0 hr (by decide) (by decide)
  have h1 := hcell r 0 1 hr (by decide) (by decide)
  have h2 := hcell r 0 2 hr (by decide) (by decide)
  have h3 := hcell r 0 3 hr (by decide) (by decide)
  rw [hrow] at h0 h1 h2 h3
  simp only [Nat.zero_mul, Nat.zero_add] at h0 h1 h2 h3
  simp only [List.range_succ, List.range_zero, List.nil_append, List.cons_append,
    List.map_cons, List.map_nil, h0, h1, h2, h3]
  simp

/-- Witness for C8: the two scenarios of the specification. -/
theorem single_image_zero_delta_witness :
    (∃ out splits : Tensor ℚ,
      BBoxTransformCPUKernel sampleConfig innerBox oneRowDeltas largeImage =
        .ok (out, splits) ∧
      splits.sizes = [1] ∧ splits.data 0 = 1 ∧
      (List.range 4).map (out.coeff 4 0) = [10, 10, 20, 20]) ∧
    (∃ out splits : Tensor ℚ,
      BBoxTransformCPUKernel sampleConfig cornerBox oneRowDeltas oneImageInfo =
        .ok (out, splits) ∧
      (List.range 4).map (out.coeff 4 0) = [0, 0, 5, 5]) := by
  have hz : ∀ r j, r < 1 → j < 4 → oneRowDeltas.coeff 4 r j = 0 := by
    intro r j _ _; simp [oneRowDeltas, Tensor.ofList, Tensor.coeff]
  constructor
  · obtain ⟨out, splits, hok, h1, h2, h3⟩ := single_image_zero_delta sampleExp
      (by norm_num [sampleExp]) 4 (by norm_num) false innerBox oneRowDeltas largeImage 1
      100 100 rfl rfl rfl (by norm_num [largeImage, Tensor.ofList, Tensor.coeff])
      (by norm_num [largeImage, Tensor.ofList, Tensor.coeff])
      (by norm_num [largeImage, Tensor.ofList, Tensor.coeff]) hz
    refine ⟨out, splits, hok, h1, by simpa using h2, ?_⟩
    rw [h3 0 (by decide) (by norm_num [innerBox, Tensor.ofList, Tensor.coeff])
      (by norm_num [innerBox, Tensor.ofList, Tensor.coeff])]
    norm_num [innerBox, Tensor.ofList, Tensor.coeff, clamp, toInt]
  · obtain ⟨out, splits, hok, -, -, h3⟩ := single_image_zero_delta sampleExp
      (by norm_num [sampleExp]) 4 (by norm_num) false cornerBox oneRowDeltas oneImageInfo 1
      10 10 rfl rfl rfl (by norm_num [oneImageInfo, Tensor.ofList, Tensor.coeff])
      (by norm_num [oneImageInfo, Tensor.ofList, Tensor.coeff])
      (by norm_num [oneImageInfo, Tensor.ofList, Tensor.coeff]) hz
    refine ⟨out, splits, hok, ?_⟩
    rw [h3 0 (by decide) (by norm_num [cornerBox, Tensor.ofList, Tensor.coeff])
      (by norm_num [cornerBox, Tensor.ofList, Tensor.coeff])]
    norm_num [cornerBox, Tensor.ofList, Tensor.coeff, clamp, toInt]

/-! ## Scale round trip -/

theorem leftCols4_range_map {K : Type} [LinearOrderedField K] (f : K → K) (g : Nat → K)
    (n : Nat) :
    leftCols4 f ((List.range n).map g) =
      (List.range n).map fun j => if j < 4 then f (g j) else g j := by
  unfold leftCols4
  rw [List.length_map, List.length_range]
  apply List.map_congr_left
  intro j hj
  rw [getD_range_map g n j 0 (List.mem_range.mp hj)]

theorem leftCols4_getD {K : Type} [LinearOrderedField K] (f : K → K) (row : List K) (j : Nat) :
    (leftCols4 f row).getD j 0 =
      if j < row.length then (if j < 4 then f (row.getD j 0) else row.getD j 0) else 0 := by
  unfold leftCols4
  by_cases h : j < row.length
  · rw [getD_range_map _ _ _ _ h, if_pos h]
  · rw [if_neg h]
    have hnone : ((List.range row.length).map fun j =>
        if j < 4 then f (row.getD j 0) else row.getD j 0)[j]? = none := by
      apply List.getElem?_eq_none
      simp only [List.length_map, List.length_range]
      omega
    rw [List.getD_eq_getElem?_getD, hnone]
    rfl

/-- Every row below the offset after `n` batches lies in the range of one of them. -/
theorem exists_batch_of_row (counts : List Nat) (n r : Nat) (h : r < batchOffset counts n) :
    ∃ i, i < n ∧ batchOffset counts i ≤ r ∧ r < batchOffset counts (i + 1) := by
  induction n with
  | zero => simp [batchOffset] at h
  | succ n ih =>
    rcases Nat.lt_or_ge r (batchOffset counts n) with hlt | hge
    · obtain ⟨i, hi, h1, h2⟩ := ih hlt
      exact ⟨i, by omega, h1, h2⟩
    · exact ⟨n, by omega, hge, h⟩

/-- The row written from boxes scaled by `s` with image information `(s H, s W, s)` against
    the row written from the unscaled boxes with image information `(H, W, 1)`. -/
theorem refinedRow_scaled {K : Type} [LinearOrderedField K] [FloorRing K] (cfg : Config K)
    (hscale : cfg.apply_scale = true) (s : K) (hs : 0 < s)
    (roi_in roi_scaled delta_in iminfo_in iminfo_scaled : Tensor K)
    (roi_cols delta_cols i k r : Nat)
    (hcols : roi_cols = cfg.box_dim ∨ roi_cols = cfg.box_dim + 1)
    (hbox : ∀ c, c < roi_cols → roi_scaled.coeff roi_cols r c =
      if roi_cols - cfg.box_dim ≤ c ∧ c < roi_cols - cfg.box_dim + 4 then
        s * roi_in.coeff roi_cols r c
      else roi_in.coeff roi_cols r c)
    (h1 : iminfo_in.coeff 3 i 2 = 1)
    (hH : iminfo_scaled.coeff 3 i 0 = s * iminfo_in.coeff 3 i 0)
    (hW : iminfo_scaled.coeff 3 i 1 = s * iminfo_in.coeff 3 i 1)
    (hS : iminfo_scaled.coeff 3 i 2 = s) (j : Nat) :
    (refinedRow cfg roi_scaled delta_in iminfo_scaled roi_cols delta_cols i k r).getD j 0 =
      if j < 4 then
        s * (refinedRow cfg roi_in delta_in iminfo_in roi_cols delta_cols i k r).getD j 0
      else (refinedRow cfg roi_in delta_in iminfo_in roi_cols delta_cols i k r).getD j 0 := by
  have hs0 : s ≠ 0 := ne_of_gt hs
  have hboxes : leftCols4 (fun x => x / s) (boxRow roi_scaled roi_cols cfg.box_dim r) =
      leftCols4 (fun x => x / 1) (boxRow roi_in roi_cols cfg.box_dim r) := by
    unfold boxRow
    rw [leftCols4_range_map, leftCols4_range_map]
    apply List.map_congr_left
    intro c hc
    have hc' : c < cfg.box_dim := List.mem_range.mp hc
    have hlt : roi_cols - cfg.box_dim + c < roi_cols := by omega
    rw [hbox _ hlt]
    by_cases h4 : c < 4
    · have hcond : roi_cols - cfg.box_dim ≤ roi_cols - cfg.box_dim + c ∧
          roi_cols - cfg.box_dim + c < roi_cols - cfg.box_dim + 4 := ⟨by omega, by omega⟩
      rw [if_pos hcond, if_pos h4, if_pos h4, div_one, mul_div_cancel_left₀ _ hs0]
    · have hcond : ¬ (roi_cols - cfg.box_dim ≤ roi_cols - cfg.box_dim + c ∧
          roi_cols - cfg.box_dim + c < roi_cols - cfg.box_dim + 4) := by omega
      rw [if_neg hcond, if_neg h4, if_neg h4]
  have hh : iminfo_scaled.coeff 3 i 0 / s = iminfo_in.coeff 3 i 0 / 1 := by
    rw [hH, div_one, mul_div_cancel_left₀ _ hs0]
  have hw : iminfo_scaled.coeff 3 i 1 / s = iminfo_in.coeff 3 i 1 / 1 := by
    rw [hW, div_one, mul_div_cancel_left₀ _ hs0]
  simp only [refinedRow, hscale, if_true, hS, h1, hboxes, hh, hw, leftCols4_getD]
  by_cases hlen : j < (cfg.clip_boxes
      (cfg.bbox_transform (leftCols4 (fun x => x / 1) (boxRow roi_in roi_cols cfg.box_dim r))
        (deltaRow delta_in delta_cols cfg.box_dim k r) cfg.weights cfg.BBOX_XFORM_CLIP_DEFAULT
        cfg.legacy_plus_one cfg.angle_bound_on cfg.angle_bound_lo cfg.angle_bound_hi)
      (toInt (iminfo_in.coeff 3 i 0 / 1 + 1 / 2)) (toInt (iminfo_in.coeff 3 i 1 / 1 + 1 / 2))
      cfg.clip_angle_thresh cfg.legacy_plus_one).length
  · rw [if_pos hlen, if_pos hlen]
    by_cases h4 : j < 4
    · rw [if_pos h4, if_pos h4, if_pos h4]; ring
    · rw [if_neg h4, if_neg h4, if_neg h4]
  · rw [if_neg hlen, if_neg hlen]
    simp

/-- C9. Scale round trip with `apply_scale = true` and `s > 0`: when the kernel accepts
    boxes with image information `(H, W, 1)`, it accepts the boxes whose four linear
    coordinates are multiplied by `s` with image information `(s H, s W, s)` and the same
    deltas, weights and flags; for every box and class the four linear output coordinates
    are `s` times those of the unscaled run and the other columns (the angle in rotated mode)
    are identical. -/
theorem scale_round_trip {K : Type} [LinearOrderedField K] [FloorRing K] (cfg : Config K)
    (hscale : cfg.apply_scale = true) (s : K) (hs : 0 < s)
    (roi_in roi_scaled delta_in iminfo_in iminfo_scaled out splits : Tensor K)
    (N roi_cols delta_cols batch_size : Nat)
    (hroi : roi_in.sizes = [N, roi_cols]) (hroiS : roi_scaled.sizes = [N, roi_cols])
    (hdelta : delta_in.sizes = [N, delta_cols])
    (him : iminfo_in.sizes = [batch_size, 3]) (himS : iminfo_scaled.sizes = [batch_size, 3])
    (hbox : ∀ r c, r < N → c < roi_cols → roi_scaled.coeff roi_cols r c =
      if roi_cols - cfg.box_dim ≤ c ∧ c < roi_cols - cfg.box_dim + 4 then
        s * roi_in.coeff roi_cols r c
      else roi_in.coeff roi_cols r c)
    (hinfo : ∀ i, i < batch_size → iminfo_in.coeff 3 i 2 = 1 ∧
      iminfo_scaled.coeff 3 i 0 = s * iminfo_in.coeff 3 i 0 ∧
      iminfo_scaled.coeff 3 i 1 = s * iminfo_in.coeff 3 i 1 ∧
      iminfo_scaled.coeff 3 i 2 = s)
    (hok : BBoxTransformCPUKernel cfg roi_in delta_in iminfo_in = .ok (out, splits)) :
    ∃ outS splitsS,
      BBoxTransformCPUKernel cfg roi_scaled delta_in iminfo_scaled = .ok (outS, splitsS) ∧
      ∀ r k j, r < N → k < delta_cols / cfg.box_dim → j < cfg.box_dim →
        outS.coeff delta_cols r (k * cfg.box_dim + j) =
          if j < 4 then s * out.coeff delta_cols r (k * cfg.box_dim + j)
          else out.coeff delta_cols r (k * cfg.box_dim + j) := by
  obtain ⟨N', roi_cols', delta_cols', batch_size', counts, hroi', hcols, hdelta', hmod, him',
    hw, hcounts, hout, -⟩ := (kernel_ok_iff cfg roi_in delta_in iminfo_in out splits).mp hok
  rw [hroi] at hroi'
  rw [hdelta] at hdelta'
  rw [him] at him'
  obtain ⟨rfl, rfl⟩ : N = N' ∧ roi_cols = roi_cols' := by simpa using hroi'
  obtain rfl : delta_cols = delta_cols' := by simpa using hdelta'
  obtain rfl : batch_size = batch_size' := by simpa using him'
  subst hout
  -- the counting does not see the scaling
  have hids : roi_cols = cfg.box_dim + 1 →
      roiBatchIds roi_scaled roi_cols N = roiBatchIds roi_in roi_cols N := by
    intro hc
    unfold roiBatchIds
    apply List.map_congr_left
    intro r hr
    have hr' : r < N := List.mem_range.mp hr
    have hcond : ¬ (roi_cols - cfg.box_dim ≤ 0 ∧ 0 < roi_cols - cfg.box_dim + 4) := by omega
    rw [hbox r 0 hr' (by omega), if_neg hcond]
  have hcountsS : batchPartitioner roi_scaled cfg.box_dim roi_cols N batch_size = .ok counts := by
    unfold batchPartitioner at hcounts ⊢
    by_cases hbc : roi_cols = cfg.box_dim
    · rw [if_pos hbc] at hcounts ⊢
      exact hcounts
    · rw [if_neg hbc] at hcounts ⊢
      have hc : roi_cols = cfg.box_dim + 1 := by
        rcases hcols with h | h
        · exact absurd h hbc
        · exact h
      rw [hids hc]
      exact hcounts
  have hokS := (kernel_ok_iff cfg roi_scaled delta_in iminfo_scaled _ _).mpr
    ⟨N, roi_cols, delta_cols, batch_size, counts, hroiS, hcols, hdelta, hmod, himS, hw,
      hcountsS, rfl, rfl⟩
  refine ⟨_, _, hokS, ?_⟩
  intro r k j hr hk hj
  obtain ⟨hlen, hsum⟩ := batchPartitioner_ok _ _ _ _ _ _ hcounts
  have hrow : r < batchOffset counts batch_size := by
    rw [← hlen, batchOffset_length, hsum]; exact hr
  obtain ⟨i, hi, hlo, hhi⟩ := exists_batch_of_row counts batch_size r hrow
  obtain ⟨i1, iH, iW, iS⟩ := hinfo i hi
  rw [boxOut_coeff cfg roi_scaled delta_in iminfo_scaled roi_cols delta_cols batch_size counts
      hmod i hi r hlo hhi k hk j hj,
    boxOut_coeff cfg roi_in delta_in iminfo_in roi_cols delta_cols batch_size counts
      hmod i hi r hlo hhi k hk j hj]
  exact refinedRow_scaled cfg hscale s hs roi_in roi_scaled delta_in iminfo_in iminfo_scaled
    roi_cols delta_cols i k r hcols (fun c hc => hbox r c hr hc) i1 iH iW iS j

/-- Witness for C9: the sample boxes against the same boxes doubled, with the image
    information stored at scale 2. -/
theorem scale_round_trip_witness :
    ∃ out splits outS splitsS : Tensor ℚ,
      BBoxTransformCPUKernel scalingConfig sampleRois sampleDeltas unitScaleImInfo =
        .ok (out, splits) ∧
      BBoxTransformCPUKernel scalingConfig doubledRois sampleDeltas doubledImInfo =
        .ok (outS, splitsS) ∧
      outS.coeff 4 2 (0 * 4 + 2) = 2 * out.coeff 4 2 (0 * 4 + 2) := by
  have hok : BBoxTransformCPUKernel scalingConfig sampleRois sampleDeltas unitScaleImInfo =
      .ok (boxOut scalingConfig sampleRois sampleDeltas unitScaleImInfo 5 4 2 [2, 1],
        batchSplits 2 [2, 1]) := by
    rw [kernel_ok_iff]
    exact ⟨3, 5, 4, 2, [2, 1], rfl, Or.inr rfl, rfl, rfl, rfl, rfl, sampleRois_partition, rfl,
      rfl⟩
  obtain ⟨outS, splitsS, hokS, hcell⟩ := scale_round_trip scalingConfig rfl 2 (by norm_num)
    sampleRois doubledRois sampleDeltas unitScaleImInfo doubledImInfo _ _ 3 5 4 2 rfl rfl rfl
    rfl rfl
    (by
      intro r c hr hc
      have hbd : scalingConfig.box_dim = 4 := rfl
      rw [hbd]
      interval_cases r <;> interval_cases c <;>
        norm_num [doubledRois, sampleRois, Tensor.coeff, Tensor.ofList])
    (by
      intro i hi
      interval_cases i <;>
        norm_num [unitScaleImInfo, doubledImInfo, Tensor.coeff, Tensor.ofList])
    hok
  refine ⟨_, _, outS, splitsS, hok, hokS, ?_⟩
  have h := hcell 2 0 2 (by decide) (by decide) (by decide)
  rw [if_pos (by decide)] at h
  exact h

/-! ## Scaling touches the linear coordinates only -/

theorem refinedRow_eq_clipped {K : Type} [LinearOrderedField K] [FloorRing K] (cfg : Config K)
    (roi_in delta_in iminfo_in : Tensor K) (roi_cols delta_cols i k r : Nat) :
    refinedRow cfg roi_in delta_in iminfo_in roi_cols delta_cols i k r =
      leftCols4 (· * (if cfg.apply_scale then iminfo_in.coeff 3 i 2 else 1))
        (clippedRow cfg roi_in delta_in iminfo_in roi_cols delta_cols i k r) := rfl

theorem Config.box_dim_apply_scale {K : Type} (cfg : Config K) (b : Bool) :
    ({ cfg with apply_scale := b } : Config K).box_dim = cfg.box_dim := rfl

theorem clippedRow_apply_scale {K : Type} [LinearOrderedField K] [FloorRing K]
    (cfg : Config K) (b : Bool) (roi_in delta_in iminfo_in : Tensor K)
    (roi_cols delta_cols i k r : Nat) :
    clippedRow { cfg with apply_scale := b } roi_in delta_in iminfo_in roi_cols delta_cols i k r
      = clippedRow cfg roi_in delta_in iminfo_in roi_cols delta_cols i k r := rfl

theorem cur_boxes_getD {K : Type} [LinearOrderedField K] [FloorRing K]
    (roi_in iminfo_in : Tensor K) (roi_cols box_dim i r j : Nat) (hj : j < box_dim) :
    (cur_boxes roi_in iminfo_in roi_cols box_dim i r).getD j 0 =
      if j < 4 then roi_in.coeff roi_cols r (roi_cols - box_dim + j) / iminfo_in.coeff 3 i 2
      else roi_in.coeff roi_cols r (roi_cols - box_dim + j) := by
  unfold cur_boxes boxRow
  rw [leftCols4_range_map, getD_range_map _ _ _ _ hj]

/-- The cell of a row of the kernel against the cell of the clipper's row. -/
theorem refinedRow_getD {K : Type} [LinearOrderedField K] [FloorRing K] (cfg : Config K)
    (roi_in delta_in iminfo_in : Tensor K) (roi_cols delta_cols i k r j : Nat) :
    (refinedRow cfg roi_in delta_in iminfo_in roi_cols delta_cols i k r).getD j 0 =
      if j < 4 then
        (clippedRow cfg roi_in delta_in iminfo_in roi_cols delta_cols i k r).getD j 0 *
          (if cfg.apply_scale then iminfo_in.coeff 3 i 2 else 1)
      else (clippedRow cfg roi_in delta_in iminfo_in roi_cols delta_cols i k r).getD j 0 := by
  rw [refinedRow_eq_clipped, leftCols4_getD]
  by_cases hlen : j < (clippedRow cfg roi_in delta_in iminfo_in roi_cols delta_cols i k r).length
  · rw [if_pos hlen]
  · rw [if_neg hlen]
    have h0 : (clippedRow cfg roi_in delta_in iminfo_in roi_cols delta_cols i k r).getD j 0
        = 0 := by
      rw [List.getD_eq_getElem?_getD, List.getElem?_eq_none (by omega)]
      rfl
    rw [h0]
    split <;> simp

/-- The counts behind an accepted input with named shapes. -/
theorem kernel_ok_counts {K : Type} [LinearOrderedField K] [FloorRing K] (cfg : Config K)
    (roi_in delta_in iminfo_in out splits : Tensor K) (N roi_cols delta_cols batch_size : Nat)
    (hroi : roi_in.sizes = [N, roi_cols]) (hdelta : delta_in.sizes = [N, delta_cols])
    (him : iminfo_in.sizes = [batch_size, 3])
    (hok : BBoxTransformCPUKernel cfg roi_in delta_in iminfo_in = .ok (out, splits)) :
    ∃ counts : List Nat, counts.length = batch_size ∧ counts.sum = N ∧
      (roi_cols = cfg.box_dim ∨ roi_cols = cfg.box_dim + 1) ∧
      delta_cols % cfg.box_dim = 0 ∧ cfg.weights.length = 4 ∧
      batchPartitioner roi_in cfg.box_dim roi_cols N batch_size = .ok counts ∧
      out = boxOut cfg roi_in delta_in iminfo_in roi_cols delta_cols batch_size counts ∧
      splits = batchSplits batch_size counts := by
  obtain ⟨N', roi_cols', delta_cols', batch_size', counts, hroi', hcols, hdelta', hmod, him',
    hw, hcounts, hout, hsplits⟩ :=
    (kernel_ok_iff cfg roi_in delta_in iminfo_in out splits).mp hok
  rw [hroi] at hroi'
  rw [hdelta] at hdelta'
  rw [him] at him'
  obtain ⟨rfl, rfl⟩ : N = N' ∧ roi_cols = roi_cols' := by simpa using hroi'
  obtain rfl : delta_cols = delta_cols' := by simpa using hdelta'
  obtain rfl : batch_size = batch_size' := by simpa using him'
  obtain ⟨hlen, hsum⟩ := batchPartitioner_ok _ _ _ _ _ _ hcounts
  exact ⟨counts, hlen, hsum, hcols, hmod, hw, hcounts, hout, hsplits⟩

/-- C11. For every accepted input, every batch `i` with scale factor
    `s = ImageInfo[i][2]` and every row `r` visited for batch `i`: the box handed to the
    transformer has its four linear coordinates divided by `s` and its other column (the
    angle) unchanged; with `apply_scale = false` the output is the clipper's row unchanged;
    the output with `apply_scale = true` is the output with `apply_scale = false` with the
    four linear coordinates of every class block multiplied by `s` and the other column
    identical. -/
theorem scaling_linear_coordinates_only {K : Type} [LinearOrderedField K] [FloorRing K]
    (cfg : Config K) (roi_in delta_in iminfo_in outF splitsF : Tensor K)
    (N roi_cols delta_cols batch_size : Nat)
    (hroi : roi_in.sizes = [N, roi_cols]) (hdelta : delta_in.sizes = [N, delta_cols])
    (him : iminfo_in.sizes = [batch_size, 3])
    (hok : BBoxTransformCPUKernel { cfg with apply_scale := false } roi_in delta_in iminfo_in =
      .ok (outF, splitsF)) :
    ∃ (outT splitsT : Tensor K) (counts : List Nat),
      BBoxTransformCPUKernel { cfg with apply_scale := true } roi_in delta_in iminfo_in =
        .ok (outT, splitsT) ∧
      counts.length = batch_size ∧
      (∀ i, i < batch_size → splitsF.data i = ((counts.getD i 0 : Nat) : K)) ∧
      ∀ i r k j, i < batch_size → batchOffset counts i ≤ r → r < batchOffset counts (i + 1) →
        k < delta_cols / cfg.box_dim → j < cfg.box_dim →
        ((cur_boxes roi_in iminfo_in roi_cols cfg.box_dim i r).getD j 0 =
            if j < 4 then
              roi_in.coeff roi_cols r (roi_cols - cfg.box_dim + j) / iminfo_in.coeff 3 i 2
            else roi_in.coeff roi_cols r (roi_cols - cfg.box_dim + j)) ∧
          outF.coeff delta_cols r (k * cfg.box_dim + j) =
            (clippedRow cfg roi_in delta_in iminfo_in roi_cols delta_cols i k r).getD j 0 ∧
          outT.coeff delta_cols r (k * cfg.box_dim + j) =
            if j < 4 then iminfo_in.coeff 3 i 2 * outF.coeff delta_cols r (k * cfg.box_dim + j)
            else outF.coeff delta_cols r (k * cfg.box_dim + j) := by
  obtain ⟨counts, hlen, -, hcols, hmod, hw, hcounts, hout, hsplits⟩ :=
    kernel_ok_counts { cfg with apply_scale := false } roi_in delta_in iminfo_in outF splitsF
      N roi_cols delta_cols batch_size hroi hdelta him hok
  have hokT := (kernel_ok_iff { cfg with apply_scale := true } roi_in delta_in iminfo_in _ _).mpr
    ⟨N, roi_cols, delta_cols, batch_size, counts, hroi, hcols, hdelta, hmod, him, hw,
      hcounts, rfl, rfl⟩
  subst hout hsplits
  refine ⟨_, _, counts, hokT, hlen, fun i _ => rfl, ?_⟩
  intro i r k j hi hlo hhi hk hj
  have hF := boxOut_coeff { cfg with apply_scale := false } roi_in delta_in iminfo_in roi_cols
    delta_cols batch_size counts hmod i hi r hlo hhi k hk j hj
  have hT := boxOut_coeff { cfg with apply_scale := true } roi_in delta_in iminfo_in roi_cols
    delta_cols batch_size counts hmod i hi r hlo hhi k hk j hj
  rw [refinedRow_getD] at hF hT
  simp only [Config.box_dim_apply_scale, clippedRow_apply_scale, Bool.false_eq_true, if_false,
    if_true, mul_one, ite_self] at hF hT
  refine ⟨cur_boxes_getD roi_in iminfo_in roi_cols cfg.box_dim i r j hj, hF, ?_⟩
  rw [hT, hF]
  split
  · ring
  · rfl

/-- Witness for C11: row 2 of the sample input is visited for batch 1, whose scale factor
    is 2; its third output coordinate with scaling is twice the one without. -/
theorem scaling_linear_coordinates_only_witness :
    ∃ outF splitsF outT splitsT : Tensor ℚ,
      BBoxTransformCPUKernel { sampleConfig with apply_scale := false } sampleRois sampleDeltas
        sampleImInfo = .ok (outF, splitsF) ∧
      BBoxTransformCPUKernel { sampleConfig with apply_scale := true } sampleRois sampleDeltas
        sampleImInfo = .ok (outT, splitsT) ∧
      outT.coeff 4 2 (0 * 4 + 2) = 2 * outF.coeff 4 2 (0 * 4 + 2) := by
  have hok : BBoxTransformCPUKernel { sampleConfig with apply_scale := false } sampleRois
      sampleDeltas sampleImInfo = .ok (_, _) := sample_kernel_ok
  obtain ⟨outT, splitsT, counts, hokT, hlen, hsplit, hcell⟩ :=
    scaling_linear_coordinates_only sampleConfig sampleRois sampleDeltas sampleImInfo _ _
      3 5 4 2 rfl rfl rfl hok
  have h0 : counts.getD 0 0 = 2 := by
    have := hsplit 0 (by decide)
    simp only [batchSplits] at this
    exact_mod_cast this.symm
  have h1 : counts.getD 1 0 = 1 := by
    have := hsplit 1 (by decide)
    simp only [batchSplits] at this
    exact_mod_cast this.symm
  have hb1 : batchOffset counts 1 = 2 := by simp only [batchOffset, h0]
  have hb2 : batchOffset counts 2 = 3 := by simp only [batchOffset, h0, h1]
  obtain ⟨-, -, h⟩ := hcell 1 2 0 2 (by decide) (by omega)
    (by show 2 < batchOffset counts 2; omega) (by decide) (by decide)
  refine ⟨_, _, outT, splitsT, hok, hokT, ?_⟩
  rw [if_pos (by decide)] at h
  have hs : sampleImInfo.coeff 3 1 2 = 2 := by
    norm_num [sampleImInfo, Tensor.coeff, Tensor.ofList]
  rw [hs] at h
  exact h

/-! ## Rounding of the image size -/

/-- For a non-negative `q`, truncating `q + 1/2` toward zero gives an integer nearest to
    `q`. -/
theorem toInt_add_half_nearest {K : Type} [LinearOrderedField K] [FloorRing K] (q : K)
    (hq : 0 ≤ q) : IsNearestInt q (toInt (q + 1 / 2)) := by
  have h0 : (0 : K) ≤ q + 1 / 2 := by linarith
  have hm : toInt (q + 1 / 2) = ⌊q + 1 / 2⌋ := by unfold toInt; rw [if_pos h0]
  rw [hm]
  have h1 : ((⌊q + 1 / 2⌋ : Int) : K) ≤ q + 1 / 2 := Int.floor_le _
  have h2 : q + 1 / 2 < ((⌊q + 1 / 2⌋ : Int) : K) + 1 := Int.lt_floor_add_one _
  intro n
  have habs : |q - ((⌊q + 1 / 2⌋ : Int) : K)| ≤ 1 / 2 := by
    rw [abs_le]; constructor <;> linarith
  rcases lt_trichotomy n ⌊q + 1 / 2⌋ with hlt | heq | hgt
  · have hle : n + 1 ≤ ⌊q + 1 / 2⌋ := hlt
    have hc : ((n : Int) : K) + 1 ≤ ((⌊q + 1 / 2⌋ : Int) : K) := by exact_mod_cast hle
    have : 1 / 2 ≤ q - (n : K) := by linarith
    exact habs.trans (this.trans (le_abs_self _))
  · rw [heq]
  · have hle : ⌊q + 1 / 2⌋ + 1 ≤ n := hgt
    have hc : ((⌊q + 1 / 2⌋ : Int) : K) + 1 ≤ ((n : Int) : K) := by exact_mod_cast hle
    have : 1 / 2 ≤ -(q - (n : K)) := by linarith
    exact habs.trans (this.trans (neg_le_abs _))

theorem toInt32_eq_some {K : Type} [LinearOrderedField K] [FloorRing K] (x : K) (m : Int)
    (h : toInt x = m) (hlo : -(2 : Int) ^ 31 ≤ m) (hhi : m < (2 : Int) ^ 31) :
    toInt32 x = some m := by
  unfold toInt32
  rw [h, if_pos ⟨hlo, hhi⟩]

theorem toInt32_eq_none {K : Type} [LinearOrderedField K] [FloorRing K] (x : K) (m : Int)
    (h : toInt x = m) (hhi : (2 : Int) ^ 31 ≤ m) : toInt32 x = none := by
  unfold toInt32
  rw [h, if_neg (by omega)]

theorem toInt32_of_range {K : Type} [LinearOrderedField K] [FloorRing K] (x : K)
    (h0 : 0 ≤ x) (h1 : x < 2 ^ 31) : toInt32 x = some (toInt x) := by
  have hm : toInt x = ⌊x⌋ := by unfold toInt; rw [if_pos h0]
  have hlo : (0 : Int) ≤ ⌊x⌋ := Int.floor_nonneg.mpr h0
  have hhi : ⌊x⌋ < (2 : Int) ^ 31 := by
    rw [Int.floor_lt]
    have hc : (((2 : Int) ^ 31 : Int) : K) = 2 ^ 31 := by norm_num
    rw [hc]
    exact h1
  exact toInt32_eq_some x _ rfl (by rw [hm]; omega) (by rw [hm]; exact hhi)

/-- With the exact division and within the range of `int`, `img_h` and `img_w` are the
    integers that the embedding of the kernel hands to `clip_boxes`. -/
theorem clippedRow_img_size {K : Type} [LinearOrderedField K] [FloorRing K] (cfg : Config K)
    (roi_in delta_in iminfo_in : Tensor K) (roi_cols delta_cols i k r : Nat) (h w : Int)
    (hh : img_h (fun x y => x / y) iminfo_in i = some h)
    (hw : img_w (fun x y => x / y) iminfo_in i = some w) :
    clippedRow cfg roi_in delta_in iminfo_in roi_cols delta_cols i k r =
      cfg.clip_boxes
        (cfg.bbox_transform (cur_boxes roi_in iminfo_in roi_cols cfg.box_dim i r)
          (deltaRow delta_in delta_cols cfg.box_dim k r) cfg.weights
          cfg.BBOX_XFORM_CLIP_DEFAULT cfg.legacy_plus_one cfg.angle_bound_on
          cfg.angle_bound_lo cfg.angle_bound_hi)
        h w cfg.clip_angle_thresh cfg.legacy_plus_one := by
  have hh' : toInt (iminfo_in.coeff 3 i 0 / iminfo_in.coeff 3 i 2 + 1 / 2) = h := by
    unfold img_h toInt32 at hh
    split at hh
    · exact Option.some.inj hh
    · cases hh
  have hw' : toInt (iminfo_in.coeff 3 i 1 / iminfo_in.coeff 3 i 2 + 1 / 2) = w := by
    unfold img_w toInt32 at hw
    split at hw
    · exact Option.some.inj hw
    · cases hw
  unfold clippedRow
  rw [hh', hw']

/-- C12 (counterexample). Three rows of image information with a non-zero scale factor.
    For `(-3, -3, 1)` the quotient `-3` is exact and the kernel passes
    `img_h = int(-3 + 0.5) = -2`, which is not an integer nearest to `-3`.  For
    `(10^10, 10^10, 1)` the quotient is exact and `int(10^10 + 0.5)` has no value: the
    nearest integer `10^10` is not an `int`.  For `(2.75, 2.75, 1.1f)` the `float` quotient
    is `2.5` and the kernel passes `img_h = 3`, which is not an integer nearest to the
    quotient `2.75 / 1.1f = 2.4999999458...`. -/
theorem img_h_not_nearest_counterexample :
    (negativeSizeImage.coeff 3 0 2 ≠ 0 ∧
      img_h (fun x y => x / y) negativeSizeImage 0 = some (-2) ∧
      ¬ IsNearestInt (negativeSizeImage.coeff 3 0 0 / negativeSizeImage.coeff 3 0 2) (-2)) ∧
    (hugeImage.coeff 3 0 2 ≠ 0 ∧ img_h (fun x y => x / y) hugeImage 0 = none) ∧
    (roundingImage.coeff 3 0 2 ≠ 0 ∧ img_h roundedDiv roundingImage 0 = some 3 ∧
      ¬ IsNearestInt (roundingImage.coeff 3 0 0 / roundingImage.coeff 3 0 2) 3) := by
  refine ⟨⟨?_, ?_, ?_⟩, ⟨?_, ?_⟩, ⟨?_, ?_, ?_⟩⟩
  · norm_num [negativeSizeImage, Tensor.coeff, Tensor.ofList]
  · have hq : img_h (fun x y => x / y) negativeSizeImage 0 = toInt32 (-(5 / 2) : ℚ) := by
      simp only [img_h, negativeSizeImage, Tensor.coeff, Tensor.ofList]
      norm_num
    have ht : toInt (-(5 / 2) : ℚ) = -2 := by
      unfold toInt
      rw [if_neg (by norm_num), Int.ceil_eq_iff]
      constructor <;> norm_num
    rw [hq]
    exact toInt32_eq_some _ _ ht (by norm_num) (by norm_num)
  · intro h
    have := h (-3)
    norm_num [negativeSizeImage, Tensor.coeff, Tensor.ofList] at this
  · norm_num [hugeImage, Tensor.coeff, Tensor.ofList]
  · have hq : img_h (fun x y => x / y) hugeImage 0 = toInt32 ((10 : ℚ) ^ 10 + 1 / 2) := by
      simp only [img_h, hugeImage, Tensor.coeff, Tensor.ofList]
      norm_num
    have ht : toInt ((10 : ℚ) ^ 10 + 1 / 2) = 10 ^ 10 := by
      unfold toInt
      rw [if_pos (by norm_num), Int.floor_eq_iff]
      constructor <;> norm_num
    rw [hq]
    exact toInt32_eq_none _ _ ht (by norm_num)
  · norm_num [roundingImage, Tensor.coeff, Tensor.ofList]
  · have hq : img_h roundedDiv roundingImage 0 = toInt32 ((5 : ℚ) / 2 + 1 / 2) := by
      simp only [img_h, roundingImage, roundedDiv, Tensor.coeff, Tensor.ofList]
      norm_num
    have ht : toInt ((5 : ℚ) / 2 + 1 / 2) = 3 := by
      unfold toInt
      rw [if_pos (by norm_num), Int.floor_eq_iff]
      constructor <;> norm_num
    rw [hq]
    exact toInt32_eq_some _ _ ht (by norm_num) (by norm_num)
  · intro h
    have := h 2
    norm_num [roundingImage, Tensor.coeff, Tensor.ofList] at this
    rw [abs_of_pos (by norm_num), abs_of_pos (by norm_num)] at this
    norm_num at this

/-- C12 (amended). For every row `(height, width, scale_factor)` of the image information
    with `scale_factor ≠ 0`, let `qh` and `qw` be the quotients `height / scale_factor` and
    `width / scale_factor` as the kernel computes them (`fdiv`, the `float` division).  When
    `0 ≤ qh`, `0 ≤ qw` and `qh + 0.5`, `qw + 0.5` are below `2^31`, the conversions to `int`
    have a value, and the `img_h` and `img_w` that the kernel passes to the clipper are the
    truncations toward zero of `qh + 0.5` and `qw + 0.5` and are integers nearest to `qh`
    and `qw`. -/
theorem img_size_nearest {K : Type} [LinearOrderedField K] [FloorRing K]
    (fdiv : K → K → K) (iminfo_in : Tensor K) (i : Nat) (_hs : iminfo_in.coeff 3 i 2 ≠ 0)
    (hh0 : 0 ≤ fdiv (iminfo_in.coeff 3 i 0) (iminfo_in.coeff 3 i 2))
    (hh1 : fdiv (iminfo_in.coeff 3 i 0) (iminfo_in.coeff 3 i 2) + 1 / 2 < 2 ^ 31)
    (hw0 : 0 ≤ fdiv (iminfo_in.coeff 3 i 1) (iminfo_in.coeff 3 i 2))
    (hw1 : fdiv (iminfo_in.coeff 3 i 1) (iminfo_in.coeff 3 i 2) + 1 / 2 < 2 ^ 31) :
    (img_h fdiv iminfo_in i =
        some (toInt (fdiv (iminfo_in.coeff 3 i 0) (iminfo_in.coeff 3 i 2) + 1 / 2)) ∧
      IsNearestInt (fdiv (iminfo_in.coeff 3 i 0) (iminfo_in.coeff 3 i 2))
        (toInt (fdiv (iminfo_in.coeff 3 i 0) (iminfo_in.coeff 3 i 2) + 1 / 2))) ∧
    (img_w fdiv iminfo_in i =
        some (toInt (fdiv (iminfo_in.coeff 3 i 1) (iminfo_in.coeff 3 i 2) + 1 / 2)) ∧
      IsNearestInt (fdiv (iminfo_in.coeff 3 i 1) (iminfo_in.coeff 3 i 2))
        (toInt (fdiv (iminfo_in.coeff 3 i 1) (iminfo_in.coeff 3 i 2) + 1 / 2))) := by
  have hh2 : (0 : K) ≤ fdiv (iminfo_in.coeff 3 i 0) (iminfo_in.coeff 3 i 2) + 1 / 2 := by
    linarith
  have hw2 : (0 : K) ≤ fdiv (iminfo_in.coeff 3 i 1) (iminfo_in.coeff 3 i 2) + 1 / 2 := by
    linarith
  refine ⟨⟨?_, toInt_add_half_nearest _ hh0⟩, ⟨?_, toInt_add_half_nearest _ hw0⟩⟩
  · unfold img_h
    exact toInt32_of_range _ hh2 hh1
  · unfold img_w
    exact toInt32_of_range _ hw2 hw1

/-- Witness for C12: the second image of the sample input, `(20, 20, 2)`, whose quotients
    are exact; `img_h = img_w = 10`. -/
theorem img_size_nearest_witness :
    (img_h (fun x y => x / y) sampleImInfo 1 =
        some (toInt (sampleImInfo.coeff 3 1 0 / sampleImInfo.coeff 3 1 2 + 1 / 2)) ∧
      IsNearestInt (sampleImInfo.coeff 3 1 0 / sampleImInfo.coeff 3 1 2)
        (toInt (sampleImInfo.coeff 3 1 0 / sampleImInfo.coeff 3 1 2 + 1 / 2))) ∧
    (img_w (fun x y => x / y) sampleImInfo 1 =
        some (toInt (sampleImInfo.coeff 3 1 1 / sampleImInfo.coeff 3 1 2 + 1 / 2)) ∧
      IsNearestInt (sampleImInfo.coeff 3 1 1 / sampleImInfo.coeff 3 1 2)
        (toInt (sampleImInfo.coeff 3 1 1 / sampleImInfo.coeff 3 1 2 + 1 / 2))) :=
  img_size_nearest (fun x y => x / y) sampleImInfo 1
    (by norm_num [sampleImInfo, Tensor.coeff, Tensor.ofList])
    (by norm_num [sampleImInfo, Tensor.coeff, Tensor.ofList])
    (by norm_num [sampleImInfo, Tensor.coeff, Tensor.ofList])
    (by norm_num [sampleImInfo, Tensor.coeff, Tensor.ofList])
    (by norm_num [sampleImInfo, Tensor.coeff, Tensor.ofList])

/-! ## Every cell is written once -/

theorem classBlocks_countP (box_dim : Nat) (hbd : 0 < box_dim)
    (i offset num_rois num_classes r c : Nat) :
    (classBlocks box_dim i offset num_rois num_classes).countP (fun b => b.covers r c) =
      if offset ≤ r ∧ r < offset + num_rois ∧ c < num_classes * box_dim then 1 else 0 := by
  induction num_classes with
  | zero => simp [classBlocks]
  | succ n ih =>
    unfold classBlocks at ih ⊢
    rw [List.range_succ, List.map_append, List.countP_append, ih]
    have hsucc : (n + 1) * box_dim = n * box_dim + box_dim := by ring
    simp only [List.map_cons, List.map_nil, List.countP_cons, List.countP_nil, Block.covers,
      decide_eq_true_eq, Nat.zero_add, hsucc]
    by_cases h1 : offset ≤ r ∧ r < offset + num_rois
    · obtain ⟨ha, hb⟩ := h1
      by_cases h3 : c < n * box_dim
      · have h4 : c < n * box_dim + box_dim := by omega
        have h5 : ¬ n * box_dim ≤ c := by omega
        simp [ha, hb, h3, h4, h5]
      · by_cases h4 : c < n * box_dim + box_dim
        · have h5 : n * box_dim ≤ c := by omega
          simp [ha, hb, h3, h4, h5]
        · simp [ha, hb, h3, h4]
    · have e1 : ¬ (offset ≤ r ∧ r < offset + num_rois ∧ c < n * box_dim) :=
        fun h => h1 ⟨h.1, h.2.1⟩
      have e2 : ¬ (offset ≤ r ∧ r < offset + num_rois ∧ n * box_dim ≤ c ∧
          c < n * box_dim + box_dim) := fun h => h1 ⟨h.1, h.2.1⟩
      have e3 : ¬ (offset ≤ r ∧ r < offset + num_rois ∧ c < n * box_dim + box_dim) :=
        fun h => h1 ⟨h.1, h.2.1⟩
      rw [if_neg e1, if_neg e2, if_neg e3]

theorem writtenBlocks_succ (box_dim num_classes : Nat) (counts : List Nat) (n : Nat) :
    writtenBlocks box_dim num_classes counts (n + 1) =
      ((writtenBlocks box_dim num_classes counts n).1 + counts.getD n 0,
        (writtenBlocks box_dim num_classes counts n).2 ++
          classBlocks box_dim n (writtenBlocks box_dim num_classes counts n).1
            (counts.getD n 0) num_classes) := by
  simp [writtenBlocks, List.range_succ, List.foldl_append]

theorem writtenBlocks_fst (box_dim num_classes : Nat) (counts : List Nat) (n : Nat) :
    (writtenBlocks box_dim num_classes counts n).1 = batchOffset counts n := by
  induction n with
  | zero => simp [writtenBlocks, batchOffset]
  | succ n ih => rw [writtenBlocks_succ]; simp [batchOffset, ih]

/-- The number of the blocks assigned in the first `n` batches that contain a cell. -/
theorem writtenBlocks_countP (box_dim : Nat) (hbd : 0 < box_dim) (num_classes : Nat)
    (counts : List Nat) (n r c : Nat) :
    (writtenBlocks box_dim num_classes counts n).2.countP (fun b => b.covers r c) =
      if r < batchOffset counts n ∧ c < num_classes * box_dim then 1 else 0 := by
  induction n with
  | zero => simp [writtenBlocks, batchOffset]
  | succ n ih =>
    rw [writtenBlocks_succ, List.countP_append, ih, classBlocks_countP box_dim hbd,
      writtenBlocks_fst]
    simp only [batchOffset]
    split_ifs <;> omega

/-- The loops assign exactly the blocks of `writtenBlocks`, in that order. -/
theorem batchLoop_eq_assignBlocks {K : Type} [LinearOrderedField K] [FloorRing K]
    (cfg : Config K) (roi_in delta_in iminfo_in : Tensor K)
    (roi_cols delta_cols num_classes : Nat) (counts : List Nat) (n : Nat) :
    (batchLoop cfg roi_in delta_in iminfo_in roi_cols delta_cols num_classes counts n).2 =
      assignBlocks cfg roi_in delta_in iminfo_in roi_cols delta_cols
        (writtenBlocks cfg.box_dim num_classes counts n).2 := by
  induction n with
  | zero => simp [batchLoop, writtenBlocks, assignBlocks]
  | succ n ih =>
    rw [batchLoop_succ, writtenBlocks_succ, batchLoop_fst, writtenBlocks_fst]
    simp only [assignBlocks, List.foldl_append] at ih ⊢
    rw [← ih]
    simp only [classLoop, classBlocks, List.foldl_map]

/-- C13. For every accepted input, with `offset_i` the sum of the counts of the batches
    before `i`: the row ranges `[offset_i, offset_i + count_i)` of the batches are pairwise
    disjoint and cover exactly the rows `0 .. N - 1`; the output table is the table of zeros
    after the assignment of the blocks of the iterations; and every cell of the
    `N x (box_dim * num_classes)` table lies in the block of exactly one (batch, class)
    iteration. -/
theorem cells_written_once {K : Type} [LinearOrderedField K] [FloorRing K]
    (cfg : Config K) (roi_in delta_in iminfo_in out splits : Tensor K)
    (N roi_cols delta_cols batch_size : Nat)
    (hroi : roi_in.sizes = [N, roi_cols]) (hdelta : delta_in.sizes = [N, delta_cols])
    (him : iminfo_in.sizes = [batch_size, 3])
    (hok : BBoxTransformCPUKernel cfg roi_in delta_in iminfo_in = .ok (out, splits)) :
    ∃ counts : List Nat,
      counts.length = batch_size ∧
      (∀ i, i < batch_size → splits.data i = ((counts.getD i 0 : Nat) : K)) ∧
      (∀ i j r, i < j → j < batch_size →
        ¬ ((batchOffset counts i ≤ r ∧ r < batchOffset counts i + counts.getD i 0) ∧
          (batchOffset counts j ≤ r ∧ r < batchOffset counts j + counts.getD j 0))) ∧
      (∀ r, r < N ↔ ∃ i, i < batch_size ∧
        batchOffset counts i ≤ r ∧ r < batchOffset counts i + counts.getD i 0) ∧
      delta_cols = cfg.box_dim * (delta_cols / cfg.box_dim) ∧
      out = ⟨delta_in.sizes, fun idx =>
        assignBlocks cfg roi_in delta_in iminfo_in roi_cols delta_cols
          (writtenBlocks cfg.box_dim (delta_cols / cfg.box_dim) counts batch_size).2
          (idx / delta_cols) (idx % delta_cols)⟩ ∧
      ∀ r c, r < N → c < delta_cols →
        (writtenBlocks cfg.box_dim (delta_cols / cfg.box_dim) counts batch_size).2.countP
          (fun b => b.covers r c) = 1 := by
  obtain ⟨counts, hlen, hsum, -, hmod, -, -, hout, hsplits⟩ :=
    kernel_ok_counts cfg roi_in delta_in iminfo_in out splits N roi_cols delta_cols batch_size
      hroi hdelta him hok
  have hN : batchOffset counts batch_size = N := by rw [← hlen, batchOffset_length, hsum]
  have hdc : delta_cols / cfg.box_dim * cfg.box_dim = delta_cols :=
    Nat.div_mul_cancel (Nat.dvd_of_mod_eq_zero hmod)
  refine ⟨counts, hlen, ?_, ?_, ?_, ?_, ?_, ?_⟩
  · intro i _
    rw [hsplits]; rfl
  · intro i j r hij _ h
    have hmono := batchOffset_mono counts (show i + 1 ≤ j from hij)
    simp only [batchOffset] at hmono
    omega
  · intro r
    constructor
    · intro hr
      obtain ⟨i, hi, h1, h2⟩ := exists_batch_of_row counts batch_size r (by omega)
      exact ⟨i, hi, h1, by simpa [batchOffset] using h2⟩
    · rintro ⟨i, hi, -, h2⟩
      have hmono := batchOffset_mono counts (show i + 1 ≤ batch_size from hi)
      simp only [batchOffset] at hmono
      omega
  · rw [Nat.mul_comm, hdc]
  · rw [hout]
    unfold boxOut
    rw [batchLoop_eq_assignBlocks]
  · intro r c hr hc
    rw [writtenBlocks_countP cfg.box_dim cfg.box_dim_pos, if_pos ⟨by omega, by omega⟩]

/-- Witness for C13: the sample input; the cell `(2, 3)` lies in exactly one block. -/
theorem cells_written_once_witness :
    ∃ counts : List Nat, counts.length = 2 ∧
      (∀ i, i < 2 → (batchSplits 2 [2, 1] : Tensor ℚ).data i = ((counts.getD i 0 : Nat) : ℚ)) ∧
      (writtenBlocks sampleConfig.box_dim (4 / sampleConfig.box_dim) counts 2).2.countP
        (fun b => b.covers 2 3) = 1 := by
  obtain ⟨counts, hlen, hs, -, -, -, -, hc⟩ := cells_written_once sampleConfig sampleRois
    sampleDeltas sampleImInfo _ _ 3 5 4 2 rfl rfl rfl sample_kernel_ok
  exact ⟨counts, hlen, hs, hc 2 3 (by decide) (by decide)⟩

/-! ## Grouping by position -/

theorem list_eq_of_getD (l₁ l₂ : List Nat) (hlen : l₁.length = l₂.length)
    (h : ∀ i, l₁.getD i 0 = l₂.getD i 0) : l₁ = l₂ := by
  apply List.ext_getElem hlen
  intro i h1 h2
  have := h i
  rw [List.getD_eq_getElem?_getD, List.getD_eq_getElem?_getD, List.getElem?_eq_getElem h1,
    List.getElem?_eq_getElem h2] at this
  exact this

/-- The counting loop sees the batch indices only through the number of times each
    occurs. -/
theorem countRois_of_count_eq (batch_size : Nat) (ids ids' : List Int) (counts : List Nat)
    (hcount : ∀ b : Int, ids'.count b = ids.count b)
    (h : countRois batch_size ids (List.replicate batch_size 0) = .ok counts) :
    countRois batch_size ids' (List.replicate batch_size 0) = .ok counts := by
  have hperm : ids'.Perm ids := List.perm_iff_count.mpr hcount
  have hb := countRois_ok_bounds _ _ _ _ h
  obtain ⟨res, hres⟩ := countRois_ok_of_bounds batch_size ids' (List.replicate batch_size 0)
    (fun id hid => hb id (hperm.mem_iff.mp hid))
  have hlen : res.length = counts.length := by
    rw [countRois_ok_length _ _ _ _ hres, countRois_ok_length _ _ _ _ h]
  have hget : ∀ i, res.getD i 0 = counts.getD i 0 := by
    intro i
    rw [countRois_ok_getD _ _ _ _ (List.length_replicate _ _) hres i,
      countRois_ok_getD _ _ _ _ (List.length_replicate _ _) h i, hcount]
  rw [hres, list_eq_of_getD res counts hlen hget]

/-- Two runs whose iterations compute the same rows for the rows they visit return the same
    table. -/
theorem boxOut_congr {K : Type} [LinearOrderedField K] [FloorRing K] (cfg : Config K)
    (roi_in roi_in' delta_in iminfo_in : Tensor K) (roi_cols delta_cols batch_size : Nat)
    (counts : List Nat)
    (h : ∀ i k r, i < batch_size → r < batchOffset counts batch_size →
      refinedRow cfg roi_in' delta_in iminfo_in roi_cols delta_cols i k r =
        refinedRow cfg roi_in delta_in iminfo_in roi_cols delta_cols i k r) :
    boxOut cfg roi_in' delta_in iminfo_in roi_cols delta_cols batch_size counts =
      boxOut cfg roi_in delta_in iminfo_in roi_cols delta_cols batch_size counts := by
  have hcell : ∀ r c,
      (batchLoop cfg roi_in' delta_in iminfo_in roi_cols delta_cols (delta_cols / cfg.box_dim)
        counts batch_size).2 r c =
      (batchLoop cfg roi_in delta_in iminfo_in roi_cols delta_cols (delta_cols / cfg.box_dim)
        counts batch_size).2 r c := by
    intro r c
    by_cases hin : r < batchOffset counts batch_size ∧
        c < delta_cols / cfg.box_dim * cfg.box_dim
    · obtain ⟨hr, hc⟩ := hin
      obtain ⟨i, hi, h1, h2⟩ := exists_batch_of_row counts batch_size r hr
      rw [batchLoop_apply cfg roi_in' delta_in iminfo_in roi_cols delta_cols _ counts batch_size
          i hi r c h1 h2 hc,
        batchLoop_apply cfg roi_in delta_in iminfo_in roi_cols delta_cols _ counts batch_size
          i hi r c h1 h2 hc, h i _ r hi hr]
    · have hout : batchOffset counts batch_size ≤ r ∨
          delta_cols / cfg.box_dim * cfg.box_dim ≤ c := by omega
      rw [batchLoop_untouched cfg roi_in' delta_in iminfo_in roi_cols delta_cols _ counts
          batch_size r c hout,
        batchLoop_untouched cfg roi_in delta_in iminfo_in roi_cols delta_cols _ counts
          batch_size r c hout]
  unfold boxOut
  congr 1
  funext idx
  exact hcell _ _

/-- C14. For two box tables with a batch-index column, identical coordinate columns and
    batch-index columns in which every index (converted to `int`) occurs the same number of
    times, in any order, and identical deltas, image information, weights and flags: when
    the kernel accepts the first it returns for the second the same refined boxes and the
    same per-batch counts; row `r` is processed with the image information of the batch `i`
    for which `offset_i ≤ r < offset_i + count_i`. -/
theorem grouping_by_position {K : Type} [LinearOrderedField K] [FloorRing K]
    (cfg : Config K) (roi_in roi_in' delta_in iminfo_in out splits : Tensor K)
    (N delta_cols batch_size : Nat)
    (hroi : roi_in.sizes = [N, cfg.box_dim + 1]) (hroi' : roi_in'.sizes = [N, cfg.box_dim + 1])
    (hdelta : delta_in.sizes = [N, delta_cols]) (him : iminfo_in.sizes = [batch_size, 3])
    (hcoords : ∀ r c, r < N → 1 ≤ c → c < cfg.box_dim + 1 →
      roi_in'.coeff (cfg.box_dim + 1) r c = roi_in.coeff (cfg.box_dim + 1) r c)
    (hcount : ∀ b : Int, (roiBatchIds roi_in' (cfg.box_dim + 1) N).count b =
      (roiBatchIds roi_in (cfg.box_dim + 1) N).count b)
    (hok : BBoxTransformCPUKernel cfg roi_in delta_in iminfo_in = .ok (out, splits)) :
    BBoxTransformCPUKernel cfg roi_in' delta_in iminfo_in = .ok (out, splits) ∧
      ∃ counts : List Nat, counts.length = batch_size ∧
        (∀ i, i < batch_size → splits.data i = ((counts.getD i 0 : Nat) : K)) ∧
        ∀ i r k j, i < batch_size → batchOffset counts i ≤ r →
          r < batchOffset counts i + counts.getD i 0 →
          k < delta_cols / cfg.box_dim → j < cfg.box_dim →
          out.coeff delta_cols r (k * cfg.box_dim + j) =
            (specRefinedRow cfg roi_in delta_in iminfo_in (cfg.box_dim + 1) delta_cols i k
              r).getD j 0 := by
  obtain ⟨counts, hlen, hsum, hcols, hmod, hw, hcounts, hout, hsplits⟩ :=
    kernel_ok_counts cfg roi_in delta_in iminfo_in out splits N (cfg.box_dim + 1) delta_cols
      batch_size hroi hdelta him hok
  have hN : batchOffset counts batch_size = N := by rw [← hlen, batchOffset_length, hsum]
  have hne : ¬ cfg.box_dim + 1 = cfg.box_dim := by omega
  have hcounts' : batchPartitioner roi_in' cfg.box_dim (cfg.box_dim + 1) N batch_size =
      .ok counts := by
    unfold batchPartitioner at hcounts ⊢
    rw [if_neg hne] at hcounts ⊢
    exact countRois_of_count_eq batch_size _ _ counts hcount hcounts
  have hrows : ∀ i k r, i < batch_size → r < batchOffset counts batch_size →
      refinedRow cfg roi_in' delta_in iminfo_in (cfg.box_dim + 1) delta_cols i k r =
        refinedRow cfg roi_in delta_in iminfo_in (cfg.box_dim + 1) delta_cols i k r := by
    intro i k r _ hr
    have hbox : boxRow roi_in' (cfg.box_dim + 1) cfg.box_dim r =
        boxRow roi_in (cfg.box_dim + 1) cfg.box_dim r := by
      unfold boxRow
      apply List.map_congr_left
      intro j hj
      have hj' : j < cfg.box_dim := List.mem_range.mp hj
      exact hcoords r _ (by omega) (by omega) (by omega)
    simp only [refinedRow, hbox]
  have hout' := boxOut_congr cfg roi_in roi_in' delta_in iminfo_in (cfg.box_dim + 1) delta_cols
    batch_size counts hrows
  constructor
  · rw [kernel_ok_iff]
    exact ⟨N, cfg.box_dim + 1, delta_cols, batch_size, counts, hroi', hcols, hdelta, hmod, him,
      hw, hcounts', by rw [hout, hout'], hsplits⟩
  · refine ⟨counts, hlen, ?_, ?_⟩
    · intro i _
      rw [hsplits]; rfl
    · intro i r k j hi h1 h2 hk hj
      have hkle : k * cfg.box_dim + cfg.box_dim ≤ delta_cols := by
        have e1 : (k + 1) * cfg.box_dim ≤ delta_cols / cfg.box_dim * cfg.box_dim :=
          Nat.mul_le_mul_right _ hk
        have e2 := Nat.div_mul_le_self delta_cols cfg.box_dim
        rw [Nat.succ_mul] at e1
        omega
      rw [← refinedRow_eq_spec cfg roi_in delta_in iminfo_in (cfg.box_dim + 1) delta_cols i k r
        hcols hkle, hout]
      exact boxOut_coeff cfg roi_in delta_in iminfo_in (cfg.box_dim + 1) delta_cols batch_size
        counts hmod i hi r h1 (by simpa [batchOffset] using h2) k hk j hj

/-- Witness for C14: the sample boxes with the batch indices `0, 0, 1` against the same
    boxes with the batch indices `1, 0, 0`. -/
theorem grouping_by_position_witness :
    BBoxTransformCPUKernel sampleConfig permutedRois sampleDeltas sampleImInfo =
        .ok (boxOut sampleConfig sampleRois sampleDeltas sampleImInfo 5 4 2 [2, 1],
          batchSplits 2 [2, 1]) ∧
      BBoxTransformCPUKernel sampleConfig permutedRois sampleDeltas sampleImInfo =
        BBoxTransformCPUKernel sampleConfig sampleRois sampleDeltas sampleImInfo := by
  have hids : roiBatchIds permutedRois 5 3 = [1, 0, 0] := by
    simp [permutedRois, roiBatchIds, Tensor.coeff, Tensor.ofList, toInt, List.range_succ]
  have h := (grouping_by_position sampleConfig sampleRois permutedRois sampleDeltas
    sampleImInfo _ _ 3 4 2 rfl rfl rfl rfl
    (by
      intro r c hr hc1 hc2
      have hbd : sampleConfig.box_dim = 4 := rfl
      rw [hbd] at hc2 ⊢
      interval_cases r <;> interval_cases c <;>
        norm_num [permutedRois, sampleRois, Tensor.coeff, Tensor.ofList])
    (by
      intro b
      have hbd : sampleConfig.box_dim + 1 = 5 := rfl
      rw [hbd, hids, sampleRois_batchIds]
      have hp : List.Perm ([1] ++ [0, 0] : List Int) ([0, 0] ++ [1]) := List.perm_append_comm
      exact hp.count_eq b)
    sample_kernel_ok).1
  exact ⟨h, h.trans sample_kernel_ok.symm⟩

/-! ## The index of the per-batch counter -/

/-- C15 (evaluation at the failing input). One box with batch index `-1` and one image: the
    shapes are valid and the index passes `TORCH_CHECK(roi_batch_id < batch_size)`, so no
    check of the kernel fails; the index used to increment the counter is `-1`, outside
    `[0, batch_size)`, and the kernel accesses `num_rois_per_batch` out of its bounds. -/
theorem negative_index_passes_checks :
    minusOneRois.sizes = [1, sampleConfig.box_dim + 1] ∧
      (∀ id ∈ roiBatchIds minusOneRois 5 1, id < ((1 : Nat) : Int)) ∧
      (-1 : Int) ∈ roiBatchIds minusOneRois 5 1 ∧
      BBoxTransformCPUKernel sampleConfig minusOneRois oneRowDeltas oneImageInfo ≠
        .error .invalidInput ∧
      BBoxTransformCPUKernel sampleConfig minusOneRois oneRowDeltas oneImageInfo =
        .error .outOfBounds := by
  have hids : roiBatchIds minusOneRois 5 1 = [-1] := by
    norm_num [minusOneRois, roiBatchIds, Tensor.coeff, Tensor.ofList, toInt, List.range_succ,
      Int.ceil_neg]
  have hk : BBoxTransformCPUKernel sampleConfig minusOneRois oneRowDeltas oneImageInfo =
      .error .outOfBounds := by
    rw [kernel_of_shapes sampleConfig minusOneRois oneRowDeltas oneImageInfo 1 5 4 1 rfl
      (Or.inr rfl) rfl rfl rfl rfl]
    have h : batchPartitioner minusOneRois 4 5 1 1 = .error .outOfBounds := by
      unfold batchPartitioner
      rw [if_neg (by decide), hids]
      rfl
    have h' : batchPartitioner minusOneRois sampleConfig.box_dim 5 1 1 =
        .error .outOfBounds := h
    rw [h']
  refine ⟨rfl, ?_, ?_, ?_, hk⟩
  · rw [hids]; decide
  · rw [hids]; decide
  · rw [hk]
    intro h
    cases h

end BBoxTransform
